/-
Verification of the playgen ingestion & feature-aggregation pipeline.

Shallow embedding of:
- backend/scripts/generateUserSongFeatures.js (the streaming feature aggregator):
  normalizeId, toNonNegativeNumber, clamp01, hydrateSongDurations,
  aggregateUserSongFeatures (flushCurrent inlined as flushRow);
- the Jamendo ingestion script (fetchAndStoreJamendo): parse-free model of the
  main loop (pageStep, runGenreLoop, runIngest), withRetry, chunk,
  mapTrackToSongRow;
- backend/utils/normalizeSong.js: normalizeJamendoTrack.

JavaScript numbers are modelled as rationals (the inputs exercised by the
claims stay well inside the exactly-representable range of doubles, and no
claim depends on binary rounding).  Fallible / absent JS values are modelled
by the JsVal inductive below.
-/

import Mathlib

namespace Playgen

/-- A raw JavaScript field value as it can arrive from JSON / the database:
`missing` covers both `null` and `undefined`; `nan` is a non-finite number
(NaN or plus/minus infinity); finite numbers are rationals. -/
inductive JsVal where
  | missing
  | str (s : String)
  | num (q : ℚ)
  | nan
  | bool (b : Bool)
deriving DecidableEq, Repr

/-- Decimal digits of a natural number, most significant first (used by the
model of JS number-to-string conversion; only non-emptiness matters to any
claim). -/
def natDigits (n : Nat) : List Char :=
  if h : n < 10 then [Char.ofNat (48 + n)]
  else natDigits (n / 10) ++ [Char.ofNat (48 + n % 10)]
decreasing_by
  exact Nat.div_lt_self (Nat.lt_of_lt_of_le (by norm_num) (Nat.le_of_not_lt h)) (by norm_num)

theorem natDigits_ne_nil (n : Nat) : natDigits n ≠ [] := by
  rw [natDigits]
  split
  · simp
  · simp

/-- Model of JS `String(x)` for a finite number.  The exact digit layout is
immaterial to every claim (only non-emptiness is ever used); we print
sign, integer part and, for non-integers, the denominator. -/
def jsNumToString (q : ℚ) : String :=
  ⟨(if q < 0 then ['-'] else []) ++ natDigits q.num.natAbs ++
    (if q.den = 1 then [] else '/' :: natDigits q.den)⟩

theorem jsNumToString_ne_empty (q : ℚ) : jsNumToString q ≠ "" := by
  unfold jsNumToString
  intro h
  have hd : ((if q < 0 then ['-'] else []) ++ natDigits q.num.natAbs ++
      (if q.den = 1 then [] else '/' :: natDigits q.den)) = ([] : List Char) := by
    have := congrArg String.data h
    simpa using this
  rcases List.append_eq_nil.mp hd with ⟨hd1, _⟩
  rcases List.append_eq_nil.mp hd1 with ⟨_, hd3⟩
  exact natDigits_ne_nil _ hd3

/-- Structural model of `String.prototype.trim` (drop leading and trailing
whitespace).  Implemented on the character list so that it reduces inside
proofs; JS trims a slightly larger Unicode class, which no claim exercises. -/
def jsTrim (s : String) : String :=
  ⟨((s.data.dropWhile Char.isWhitespace).reverse.dropWhile Char.isWhitespace).reverse⟩

/-- Structural model of `String.prototype.toLowerCase` (ASCII folding; the
event kinds and identifiers compared by the pipeline are ASCII). -/
def jsToLower (s : String) : String :=
  ⟨s.data.map Char.toLower⟩

/-- JS truthiness: `undefined`, `null`, `""`, `0`, `NaN` and `false` are falsy. -/
def jsTruthy : JsVal → Bool
  | .missing => false
  | .str s => !(s = "")
  | .num q => !(q = 0)
  | .nan => false
  | .bool b => b

/-- JS `String(x)`.  (`missing` is never stringified on any modelled code
path: every caller guards with a truthiness or nullish check first.) -/
def jsString : JsVal → String
  | .missing => "undefined"
  | .str s => s
  | .num q => jsNumToString q
  | .nan => "NaN"
  | .bool b => if b then "true" else "false"

/-- Character to decimal digit value, if it is a digit. -/
def digitVal? (c : Char) : Option Nat :=
  if c.isDigit then some (c.toNat - 48) else none

/-- Parse a list of decimal digit characters into a natural number
(none if any character is not a digit; the empty list parses to 0,
matching JS where `Number("") = 0` after trimming). -/
def parseDigits : List Char → Option Nat
  | [] => some 0
  | cs =>
    cs.foldl (fun acc c =>
      match acc, digitVal? c with
      | some n, some d => some (n * 10 + d)
      | _, _ => none) (some 0)

/-- Model of JS numeric-string parsing (`Number(string)`): optional sign,
decimal digits, optional fractional part.  The empty / all-whitespace string
parses to 0, as in JS.  Exotic literals (hex, exponents) are treated as NaN;
no claim distinguishes them from NaN. -/
def jsParseNum (s : String) : Option ℚ :=
  let cs := (jsTrim s).data
  match cs with
  | [] => some 0
  | _ =>
    let (sign, rest) :=
      match cs with
      | '-' :: r => ((-1 : ℚ), r)
      | '+' :: r => ((1 : ℚ), r)
      | r => ((1 : ℚ), r)
    if rest = [] then none
    else
      let intPart := rest.takeWhile Char.isDigit
      let after := rest.dropWhile Char.isDigit
      match after with
      | [] =>
        match parseDigits intPart with
        | some n => some (sign * n)
        | none => none
      | '.' :: frac =>
        if frac.all Char.isDigit ∧ (intPart ≠ [] ∨ frac ≠ []) then
          match parseDigits intPart, parseDigits frac with
          | some n, some f => some (sign * (n + f / 10 ^ frac.length))
          | _, _ => none
        else none
      | _ => none

/-- JS `Number(x)` conversion; `none` means a non-finite result (NaN).
`missing` yields NaN (the `undefined` case; the `null → 0` case is never
reached because every modelled caller guards `missing` first). -/
def jsNumber : JsVal → Option ℚ
  | .missing => none
  | .str s => jsParseNum s
  | .num q => some q
  | .nan => none
  | .bool b => some (if b then 1 else 0)

/-- JS nullish coalescing `a ?? b`. -/
def nvl (a b : JsVal) : JsVal :=
  match a with
  | .missing => b
  | v => v

/-! ## generateUserSongFeatures.js: scalar helpers -/

/-- `normalizeId` (generateUserSongFeatures.js): null/undefined become null,
anything else is stringified and trimmed; an empty trim result is null.
Identifiers arrive from the database as strings or null, so the argument is
modelled as `Option String`. -/
def normalizeId : Option String → Option String
  | none => none
  | some s => let t := jsTrim s; if t = "" then none else some t

/-- `toNonNegativeNumber` (generateUserSongFeatures.js): null/undefined map
to 0, then `Number(value)`; non-finite or negative results map to 0. -/
def toNonNegativeNumber (v : JsVal) : ℚ :=
  match v with
  | .missing => 0
  | v =>
    match jsNumber v with
    | none => 0
    | some q => if q < 0 then 0 else q

theorem toNonNegativeNumber_nonneg (v : JsVal) : 0 ≤ toNonNegativeNumber v := by
  unfold toNonNegativeNumber
  rcases v with _ | s | q | _ | b <;> simp only
  · exact le_refl 0
  all_goals
    cases h : jsNumber _ with
    | none => exact le_refl 0
    | some q =>
      dsimp only
      split
      · exact le_refl 0
      · exact le_of_not_lt (by assumption)

/-- `clamp01` (generateUserSongFeatures.js).  The source first checks
`Number.isFinite(value)`; in the rational model the value is always finite,
and every call site divides by a strictly positive finite duration. -/
def clamp01 (q : ℚ) : ℚ :=
  if q < 0 then 0 else if q > 1 then 1 else q

theorem clamp01_nonneg (q : ℚ) : 0 ≤ clamp01 q := by
  unfold clamp01
  split
  · exact le_refl 0
  · split
    · norm_num
    · exact le_of_not_lt (by assumption)

theorem clamp01_le_one (q : ℚ) : clamp01 q ≤ 1 := by
  unfold clamp01
  split
  · norm_num
  · split
    · exact le_refl 1
    · exact le_of_not_lt (by assumption)

/-- JS `Math.round(x)` for the non-negative values produced here:
`floor(x + 1/2)`. -/
def jsRound (q : ℚ) : ℤ := ⌊q + 1 / 2⌋

/-- Normalized event kind, from
`typeof evt.event_type === "string" ? evt.event_type.trim().toLowerCase() : ""`. -/
def normEventType : Option String → String
  | none => ""
  | some s => jsToLower (jsTrim s)

/-! ## generateUserSongFeatures.js: the streaming aggregator -/

/-- One row of the `events` table as selected by `fetchEvents`
(`user_id,song_id,event_type,play_duration,<timestamp column>`).
The timestamp is modelled already parsed: `ts = some m` when
`new Date(value).getTime()` yields the finite millisecond value `m`,
`none` when the raw value is null/empty/unparseable. -/
structure Event where
  user_id : Option String
  song_id : Option String
  event_type : Option String
  play_duration : JsVal
  ts : Option ℤ
deriving DecidableEq, Repr

/-- The open aggregation group (`current` in `aggregateUserSongFeatures`). -/
structure Acc where
  user_id : String
  song_id : String
  play_count : ℕ
  skip_count : ℕ
  complete_count : ℕ
  total_play_duration : ℚ
  last_played_ms : Option ℤ
deriving DecidableEq, Repr

/-- One row pushed into the output buffer by `flushCurrent`.  The two ISO
timestamp strings are modelled by their millisecond values; `updated_at` is
the wall clock at flush time (`new Date()`), passed in as a parameter. -/
structure FeatureRow where
  user_id : String
  song_id : String
  play_count : ℕ
  skip_count : ℕ
  complete_count : ℕ
  total_play_duration : ℚ
  avg_play_duration : ℤ
  completion_rate : ℚ
  last_played_at : ℤ
  updated_at : ℤ
deriving DecidableEq, Repr

/-- The fresh accumulator built when a new group opens. -/
def initAcc (uid sid : String) : Acc :=
  { user_id := uid, song_id := sid, play_count := 0, skip_count := 0,
    complete_count := 0, total_play_duration := 0, last_played_ms := none }

/-- The per-event accumulator update (the body of the inner loop of
`aggregateUserSongFeatures` after the key bookkeeping): bump the counter
matching the normalized event kind, add the sanitized duration, and track
the maximal parsed timestamp. -/
def updateAcc (c : Acc) (e : Event) : Acc :=
  let et := normEventType e.event_type
  let c :=
    if et = "play" then { c with play_count := c.play_count + 1 }
    else if et = "skip" then { c with skip_count := c.skip_count + 1 }
    else if et = "complete" then { c with complete_count := c.complete_count + 1 }
    else c
  let c := { c with total_play_duration :=
      c.total_play_duration + toNonNegativeNumber e.play_duration }
  match e.ts with
  | none => c
  | some t =>
    match c.last_played_ms with
    | none => { c with last_played_ms := some t }
    | some m => if t > m then { c with last_played_ms := some t } else c

/-- The group key string `userId + ":" + songId`.  In the source this is the
variable `currentKey`; since `updateAcc` never touches `user_id`/`song_id`,
`currentKey` always equals the key recomputed from the accumulator. -/
def accKey (c : Acc) : String := c.user_id ++ ":" ++ c.song_id

/-- `flushCurrent` without the buffering: builds the output row from a
  finished accumulator.  `cache` is the song-duration cache
  (`songDurationCache.get(song_id) ?? 0`), `now` the wall clock at flush. -/
def flushRow (cache : String → Option ℚ) (now : ℤ) (c : Acc) : FeatureRow :=
  let songDuration := (cache c.song_id).getD 0
  let avgPlayDurationSeconds : ℤ :=
    if c.play_count > 0 then jsRound (c.total_play_duration / c.play_count) else 0
  let completionRate : ℚ :=
    if songDuration > 0 then clamp01 (c.total_play_duration / songDuration) else 0
  { user_id := c.user_id, song_id := c.song_id,
    play_count := c.play_count, skip_count := c.skip_count,
    complete_count := c.complete_count,
    total_play_duration := c.total_play_duration,
    avg_play_duration := avgPlayDurationSeconds,
    completion_rate := completionRate,
    last_played_at := c.last_played_ms.getD now,
    updated_at := now }

/-- One step of the aggregation loop over a single event, at the level of
accumulators: skip events with empty identifiers, flush the open group when
the key string changes, open a group if needed, then update it.  The state is
(open group, groups flushed so far). -/
def aggStep (st : Option Acc × List Acc) (e : Event) : Option Acc × List Acc :=
  match normalizeId e.user_id, normalizeId e.song_id with
  | some uid, some sid =>
    match st.1 with
    | some c =>
      if accKey c ≠ uid ++ ":" ++ sid then
        (some (updateAcc (initAcc uid sid) e), st.2 ++ [c])
      else
        (some (updateAcc c e), st.2)
    | none => (some (updateAcc (initAcc uid sid) e), st.2)
  | _, _ => st

/-- The sequence of accumulators flushed by `aggregateUserSongFeatures` over
the given event pages, in flush order (including the final flush after the
last page). -/
def aggRuns (pages : List (List Event)) : List Acc :=
  let st := pages.foldl (fun st page => page.foldl aggStep st) (none, [])
  match st.1 with
  | some c => st.2 ++ [c]
  | none => st.2

/-- `aggregateUserSongFeatures`: the list of feature rows produced (the
concatenation of all `onBatch` batches, whose boundaries carry no data).
Each flushed accumulator yields the row `flushCurrent` builds for it. -/
def aggregateUserSongFeatures (cache : String → Option ℚ) (now : ℤ)
    (pages : List (List Event)) : List FeatureRow :=
  (aggRuns pages).map (flushRow cache now)

/-- The (user_id, song_id) key of an output row — the upsert conflict target
`onConflict: "user_id,song_id"`. -/
def rowPair (r : FeatureRow) : String × String := (r.user_id, r.song_id)

/-- Store model of `upsert(rows, onConflict: "user_id,song_id")` applied to a
row list in order: the final value at each key. -/
def upsertRows (rows : List FeatureRow) : (String × String) → Option FeatureRow :=
  rows.foldl (fun m r k => if k = rowPair r then some r else m k) (fun _ => none)

/-! ## Orders on identifiers (the sort the Event Reader requests) -/

/-- Lexicographic order on strings by character code (the order of the
store's multi-column `order` request, restricted to what the claims use). -/
def strLt (a b : String) : Prop := List.Lex (· < ·) a.data b.data

instance decStrLt (a b : String) : Decidable (strLt a b) := by
  unfold strLt; infer_instance

theorem strLt_asymm {a b : String} (h : strLt a b) (h' : strLt b a) : False :=
  (List.Lex.isAsymm (r := ((· < ·) : Char → Char → Prop))).asymm _ _ h h'

/-- Non-strict lexicographic order on (user_id, song_id) pairs: the global
sort order of the event stream, with the timestamp component dropped (it does
not influence grouping). -/
def pairLe (a b : String × String) : Prop :=
  strLt a.1 b.1 ∨ (a.1 = b.1 ∧ (a.2 = b.2 ∨ strLt a.2 b.2))

instance decPairLe (a b : String × String) : Decidable (pairLe a b) := by
  unfold pairLe; infer_instance

theorem pairLe_antisymm {a b : String × String} (h : pairLe a b) (h' : pairLe b a) :
    a = b := by
  rcases h with h1 | ⟨he1, h2⟩
  · rcases h' with h1' | ⟨he1', _⟩
    · exact absurd h1' (fun hh => strLt_asymm h1 hh)
    · exact absurd h1 (fun hh => strLt_asymm hh (he1' ▸ hh))
  · rcases h' with h1' | ⟨_, h2'⟩
    · exact absurd h1' (fun hh => strLt_asymm hh (he1 ▸ hh))
    · rcases h2 with he2 | h2
      · exact Prod.ext he1 he2
      · rcases h2' with he2' | h2'
        · exact Prod.ext he1 he2'.symm
        · exact absurd h2' (fun hh => strLt_asymm h2 hh)

/-! ## Maximal runs of equal keys -/

/-- Split a list into its maximal runs of consecutive elements sharing a key:
each run is returned as (first element, remaining elements of the run). -/
def runs {α κ : Type*} [DecidableEq κ] (f : α → κ) : List α → List (α × List α)
  | [] => []
  | a :: rest =>
    (a, rest.takeWhile (fun b => f b = f a)) ::
      runs f (rest.dropWhile (fun b => f b = f a))
termination_by l => l.length
decreasing_by
  simpa [Nat.lt_succ_iff] using
    List.Sublist.length_le ((List.dropWhile_suffix _).sublist)

/-- The events of a run, in order. -/
def runElems {α : Type*} (r : α × List α) : List α := r.1 :: r.2

theorem runs_join {α κ : Type*} [DecidableEq κ] (f : α → κ) (l : List α) :
    ((runs f l).map runElems).flatten = l := by
  have H : ∀ n (l : List α), l.length ≤ n → ((runs f l).map runElems).flatten = l := by
    intro n
    induction n with
    | zero =>
      intro l hl
      rw [List.length_eq_zero.mp (Nat.le_zero.mp hl), runs]
      rfl
    | succ n ih =>
      intro l hl
      cases l with
      | nil => rw [runs]; rfl
      | cons a rest =>
        rw [runs]
        have hdrop : (rest.dropWhile (fun b => f b = f a)).length ≤ n := by
          have h1 : (rest.dropWhile (fun b => f b = f a)).length ≤ rest.length :=
            List.Sublist.length_le ((List.dropWhile_suffix _).sublist)
          have h2 : rest.length ≤ n := Nat.le_of_succ_le_succ hl
          exact Nat.le_trans h1 h2
        simp only [List.map_cons, List.flatten_cons, runElems, ih _ hdrop]
        rw [List.cons_append, List.takeWhile_append_dropWhile]
  exact H l.length l (Nat.le_refl _)

theorem runs_run_key {α κ : Type*} [DecidableEq κ] (f : α → κ) (l : List α)
    {r : α × List α} (hr : r ∈ runs f l) : ∀ x ∈ r.2, f x = f r.1 := by
  have H : ∀ n (l : List α), l.length ≤ n →
      ∀ r ∈ runs f l, ∀ x ∈ r.2, f x = f r.1 := by
    intro n
    induction n with
    | zero =>
      intro l hl
      rw [List.length_eq_zero.mp (Nat.le_zero.mp hl)]
      intro r hr
      simp [runs] at hr
    | succ n ih =>
      intro l hl r hr x hx
      cases l with
      | nil => simp [runs] at hr
      | cons a rest =>
        rw [runs, List.mem_cons] at hr
        rcases hr with hr | hr
        · subst hr
          have := List.mem_takeWhile_imp hx
          simpa using this
        · have hdrop : (rest.dropWhile (fun b => f b = f a)).length ≤ n := by
            have h1 : (rest.dropWhile (fun b => f b = f a)).length ≤ rest.length :=
              List.Sublist.length_le ((List.dropWhile_suffix _).sublist)
            exact Nat.le_trans h1 (Nat.le_of_succ_le_succ hl)
          exact ih _ hdrop r hr x hx
  exact H l.length l (Nat.le_refl _) r hr

theorem runs_head_mem {α κ : Type*} [DecidableEq κ] (f : α → κ) (l : List α)
    {r : α × List α} (hr : r ∈ runs f l) : r.1 ∈ l := by
  have hj := runs_join f l
  have : r.1 ∈ ((runs f l).map runElems).flatten := by
    rw [List.mem_flatten]
    exact ⟨runElems r, List.mem_map_of_mem _ hr, List.mem_cons_self _ _⟩
  rwa [hj] at this

theorem runs_elem_mem {α κ : Type*} [DecidableEq κ] (f : α → κ) (l : List α)
    {r : α × List α} (hr : r ∈ runs f l) {x : α} (hx : x ∈ runElems r) : x ∈ l := by
  have hj := runs_join f l
  have : x ∈ ((runs f l).map runElems).flatten := by
    rw [List.mem_flatten]
    exact ⟨runElems r, List.mem_map_of_mem _ hr, hx⟩
  rwa [hj] at this

/-! ## The aggregator as a function of its valid events -/

/-- A valid event: its normalized (user_id, song_id) pair plus the raw event.
Events whose user_id or song_id normalizes to null are skipped by the loop. -/
abbrev VEv : Type := (String × String) × Event

/-- Normalization of one event's identifiers, as done at the top of the
aggregation loop body. -/
def validOf (e : Event) : Option VEv :=
  match normalizeId e.user_id, normalizeId e.song_id with
  | some u, some s => some ((u, s), e)
  | _, _ => none

/-- The subsequence of events that the aggregation loop does not skip. -/
def validEvents (l : List Event) : List VEv := l.filterMap validOf

/-- The group key string the loop computes for an event:
`userId + ":" + songId`. -/
def vKey (v : VEv) : String := v.1.1 ++ ":" ++ v.1.2

def vInit (v : VEv) : Acc := initAcc v.1.1 v.1.2

def vStep (c : Acc) (v : VEv) : Acc := updateAcc c v.2

/-- `aggStep` restricted to valid events. -/
def vAggStep (st : Option Acc × List Acc) (v : VEv) : Option Acc × List Acc :=
  match st.1 with
  | some c =>
    if accKey c ≠ vKey v then
      (some (vStep (vInit v) v), st.2 ++ [c])
    else
      (some (vStep c v), st.2)
  | none => (some (vStep (vInit v) v), st.2)

/-- The final flush after the last page. -/
def finishState (st : Option Acc × List Acc) : List Acc :=
  match st.1 with
  | some c => st.2 ++ [c]
  | none => st.2

/-- The accumulator a run of consecutive same-key valid events produces. -/
def runAcc (r : VEv × List VEv) : Acc := (runElems r).foldl vStep (vInit r.1)

theorem aggStep_eq_vAggStep (st : Option Acc × List Acc) (e : Event) :
    aggStep st e = match validOf e with
      | some v => vAggStep st v
      | none => st := by
  unfold aggStep validOf vAggStep vKey vStep vInit
  rcases hu : normalizeId e.user_id with _ | u <;>
    rcases hs : normalizeId e.song_id with _ | s <;> rfl

theorem foldl_aggStep_validEvents (l : List Event) (st : Option Acc × List Acc) :
    l.foldl aggStep st = (validEvents l).foldl vAggStep st := by
  induction l generalizing st with
  | nil => rfl
  | cons e l ih =>
    rw [List.foldl_cons, aggStep_eq_vAggStep]
    unfold validEvents
    rw [List.filterMap_cons]
    cases validOf e with
    | none => exact ih st
    | some v => rw [List.foldl_cons]; exact ih _

theorem aggRuns_eq_foldl_valid (pages : List (List Event)) :
    aggRuns pages = finishState ((validEvents pages.flatten).foldl vAggStep (none, [])) := by
  unfold aggRuns finishState
  have h : pages.foldl (fun st page => page.foldl aggStep st) (none, []) =
      (pages.flatten).foldl aggStep (none, []) := by
    generalize (none, []) = st
    induction pages generalizing st with
    | nil => rfl
    | cons p pages ih => rw [List.foldl_cons, List.flatten_cons, List.foldl_append, ih]
  rw [h, foldl_aggStep_validEvents]

/-! ### Field-level description of the accumulator update -/

/-- The running-maximum timestamp update at the end of the loop body. -/
def maxTs (old : Option ℤ) (t? : Option ℤ) : Option ℤ :=
  match t? with
  | none => old
  | some t =>
    match old with
    | none => some t
    | some m => if t > m then some t else some m

theorem updateAcc_eq (c : Acc) (e : Event) :
    updateAcc c e =
      { user_id := c.user_id, song_id := c.song_id,
        play_count := c.play_count +
          (if normEventType e.event_type = "play" then 1 else 0),
        skip_count := c.skip_count +
          (if normEventType e.event_type = "skip" then 1 else 0),
        complete_count := c.complete_count +
          (if normEventType e.event_type = "complete" then 1 else 0),
        total_play_duration :=
          c.total_play_duration + toNonNegativeNumber e.play_duration,
        last_played_ms := maxTs c.last_played_ms e.ts } := by
  unfold updateAcc maxTs
  by_cases h1 : normEventType e.event_type = "play"
  · have h2 : normEventType e.event_type ≠ "skip" := by rw [h1]; decide
    have h3 : normEventType e.event_type ≠ "complete" := by rw [h1]; decide
    simp only [h1, h2, h3, if_true, if_false, if_pos, if_neg, ite_true, ite_false]
    rcases e.ts with _ | t <;> rcases hl : c.last_played_ms with _ | m <;>
      (simp [hl]; all_goals (split <;> rfl))
  · by_cases h2 : normEventType e.event_type = "skip"
    · have h3 : normEventType e.event_type ≠ "complete" := by rw [h2]; decide
      simp only [h1, h2, h3, if_true, if_false, ite_true, ite_false]
      rcases e.ts with _ | t <;> rcases hl : c.last_played_ms with _ | m <;>
        (simp [hl]; all_goals (split <;> rfl))
    · by_cases h3 : normEventType e.event_type = "complete" <;>
        · simp only [h1, h2, h3, if_true, if_false, ite_true, ite_false]
          rcases e.ts with _ | t <;> rcases hl : c.last_played_ms with _ | m <;>
            (simp [hl]; all_goals (split <;> rfl))

theorem updateAcc_user (c : Acc) (e : Event) : (updateAcc c e).user_id = c.user_id := by
  rw [updateAcc_eq]

theorem updateAcc_song (c : Acc) (e : Event) : (updateAcc c e).song_id = c.song_id := by
  rw [updateAcc_eq]

theorem accKey_updateAcc (c : Acc) (e : Event) : accKey (updateAcc c e) = accKey c := by
  unfold accKey
  rw [updateAcc_user, updateAcc_song]

theorem accKey_vInit (v : VEv) : accKey (vInit v) = vKey v := rfl

/-! ### Counting what a fold over a run accumulates -/

def vIsPlay (v : VEv) : Bool := decide (normEventType v.2.event_type = "play")
def vIsSkip (v : VEv) : Bool := decide (normEventType v.2.event_type = "skip")
def vIsComplete (v : VEv) : Bool := decide (normEventType v.2.event_type = "complete")
def vDur (v : VEv) : ℚ := toNonNegativeNumber v.2.play_duration

theorem foldl_vStep_user (l : List VEv) (c : Acc) :
    (l.foldl vStep c).user_id = c.user_id := by
  induction l generalizing c with
  | nil => rfl
  | cons v l ih => rw [List.foldl_cons, ih, vStep, updateAcc_user]

theorem foldl_vStep_song (l : List VEv) (c : Acc) :
    (l.foldl vStep c).song_id = c.song_id := by
  induction l generalizing c with
  | nil => rfl
  | cons v l ih => rw [List.foldl_cons, ih, vStep, updateAcc_song]

theorem accKey_foldl_vStep (l : List VEv) (c : Acc) :
    accKey (l.foldl vStep c) = accKey c := by
  unfold accKey
  rw [foldl_vStep_user, foldl_vStep_song]

theorem foldl_vStep_play (l : List VEv) (c : Acc) :
    (l.foldl vStep c).play_count = c.play_count + l.countP vIsPlay := by
  induction l generalizing c with
  | nil => simp
  | cons v l ih =>
    rw [List.foldl_cons, ih, List.countP_cons]
    rw [vStep, updateAcc_eq]
    simp only [vIsPlay]
    by_cases h : normEventType v.2.event_type = "play" <;> simp [h] <;> omega

theorem foldl_vStep_skip (l : List VEv) (c : Acc) :
    (l.foldl vStep c).skip_count = c.skip_count + l.countP vIsSkip := by
  induction l generalizing c with
  | nil => simp
  | cons v l ih =>
    rw [List.foldl_cons, ih, List.countP_cons]
    rw [vStep, updateAcc_eq]
    simp only [vIsSkip]
    by_cases h : normEventType v.2.event_type = "skip" <;> simp [h] <;> omega

theorem foldl_vStep_complete (l : List VEv) (c : Acc) :
    (l.foldl vStep c).complete_count = c.complete_count + l.countP vIsComplete := by
  induction l generalizing c with
  | nil => simp
  | cons v l ih =>
    rw [List.foldl_cons, ih, List.countP_cons]
    rw [vStep, updateAcc_eq]
    simp only [vIsComplete]
    by_cases h : normEventType v.2.event_type = "complete" <;> simp [h] <;> omega

theorem foldl_vStep_total (l : List VEv) (c : Acc) :
    (l.foldl vStep c).total_play_duration =
      c.total_play_duration + (l.map vDur).sum := by
  induction l generalizing c with
  | nil => simp
  | cons v l ih =>
    rw [List.foldl_cons, ih, List.map_cons, List.sum_cons]
    rw [vStep, updateAcc_eq]
    dsimp only [vDur]
    ring

/-! ### The aggregator emits exactly the runs of its valid input -/

theorem foldl_vAggStep_out (l : List VEv) (cur : Option Acc) (out : List Acc) :
    l.foldl vAggStep (cur, out) =
      ((l.foldl vAggStep (cur, [])).1, out ++ (l.foldl vAggStep (cur, [])).2) := by
  induction l generalizing cur out with
  | nil => simp
  | cons v l ih =>
    have hstep : ∀ o : List Acc, vAggStep (cur, o) v =
        ((vAggStep (cur, []) v).1, o ++ (vAggStep (cur, []) v).2) := by
      intro o
      unfold vAggStep
      rcases cur with _ | c
      · simp
      · dsimp only
        by_cases h : accKey c ≠ vKey v <;> simp [h]
    rw [List.foldl_cons, List.foldl_cons, hstep out, hstep [], List.nil_append]
    rw [ih ((vAggStep (cur, []) v).1) (out ++ (vAggStep (cur, []) v).2),
        ih ((vAggStep (cur, []) v).1) ((vAggStep (cur, []) v).2)]
    rw [List.append_assoc]

theorem finishState_append (cur : Option Acc) (a b : List Acc) :
    finishState (cur, a ++ b) = a ++ finishState (cur, b) := by
  cases cur <;> simp [finishState]

theorem foldl_vAggStep_open (l : List VEv) (c : Acc) (k : String)
    (hk : accKey c = k) :
    finishState (l.foldl vAggStep (some c, [])) =
      ((l.takeWhile (fun v => vKey v = k)).foldl vStep c) ::
        finishState ((l.dropWhile (fun v => vKey v = k)).foldl vAggStep (none, [])) := by
  induction l generalizing c with
  | nil => simp [finishState]
  | cons v l ih =>
    by_cases h : vKey v = k
    · have h1 : vAggStep (some c, []) v = (some (vStep c v), []) := by
        unfold vAggStep
        have : ¬ accKey c ≠ vKey v := by rw [hk, h]; exact fun hh => hh rfl
        simp [this]
      rw [List.foldl_cons, h1, List.takeWhile_cons_of_pos (by simpa using h),
          List.dropWhile_cons_of_pos (by simpa using h), List.foldl_cons]
      exact ih (vStep c v) (by rw [vStep, accKey_updateAcc, hk])
    · have h1 : vAggStep (some c, []) v = (some (vStep (vInit v) v), [c]) := by
        unfold vAggStep
        have : accKey c ≠ vKey v := by rw [hk]; exact fun hh => h hh.symm
        simp [this]
      have h2 : vAggStep (none, []) v = (some (vStep (vInit v) v), []) := by
        unfold vAggStep
        rfl
      rw [List.foldl_cons, h1,
          foldl_vAggStep_out l (some (vStep (vInit v) v)) [c],
          List.takeWhile_cons_of_neg (by simpa using h),
          List.dropWhile_cons_of_neg (by simpa using h), List.foldl_cons, h2]
      show finishState (_, [c] ++ _) = _
      rw [finishState_append]
      have : (l.foldl vAggStep (some (vStep (vInit v) v), [])) =
          ((l.foldl vAggStep (some (vStep (vInit v) v), [])).1,
           (l.foldl vAggStep (some (vStep (vInit v) v), [])).2) := rfl
      rw [← this]
      rfl

theorem finish_foldl_eq_runs (V : List VEv) :
    finishState (V.foldl vAggStep (none, [])) = (runs vKey V).map runAcc := by
  have H : ∀ n (V : List VEv), V.length ≤ n →
      finishState (V.foldl vAggStep (none, [])) = (runs vKey V).map runAcc := by
    intro n
    induction n with
    | zero =>
      intro V hV
      rw [List.length_eq_zero.mp (Nat.le_zero.mp hV), runs]
      rfl
    | succ n ih =>
      intro V hV
      cases V with
      | nil => rw [runs]; rfl
      | cons v V' =>
        have h2 : vAggStep (none, []) v = (some (vStep (vInit v) v), []) := by
          unfold vAggStep; rfl
        rw [List.foldl_cons, h2,
            foldl_vAggStep_open V' (vStep (vInit v) v) (vKey v)
              (by rw [vStep, accKey_updateAcc, accKey_vInit]),
            runs]
        have hdrop : (V'.dropWhile (fun b => vKey b = vKey v)).length ≤ n := by
          have h1 : (V'.dropWhile (fun b => vKey b = vKey v)).length ≤ V'.length :=
            List.Sublist.length_le ((List.dropWhile_suffix _).sublist)
          exact Nat.le_trans h1 (Nat.le_of_succ_le_succ hV)
        rw [List.map_cons, ih _ hdrop]
        unfold runAcc runElems
        rw [List.foldl_cons]
  exact H V.length V (Nat.le_refl _)

/-- Master simulation: the flushed accumulators are exactly one per maximal
run of consecutive same-key valid events, each the fold of its run. -/
theorem aggRuns_eq_runs (pages : List (List Event)) :
    aggRuns pages = (runs vKey (validEvents pages.flatten)).map runAcc := by
  rw [aggRuns_eq_foldl_valid, finish_foldl_eq_runs]

/-! ### Key injectivity for colon-free user ids, and sorted inputs -/

theorem append_cons_colon_inj {a₁ b₁ a₂ b₂ : List Char}
    (h₁ : ':' ∉ a₁) (h₂ : ':' ∉ a₂)
    (h : a₁ ++ ':' :: b₁ = a₂ ++ ':' :: b₂) : a₁ = a₂ ∧ b₁ = b₂ := by
  induction a₁ generalizing a₂ with
  | nil =>
    cases a₂ with
    | nil => simpa using h
    | cons c t =>
      simp only [List.nil_append, List.cons_append, List.cons.injEq] at h
      exact absurd (h.1 ▸ List.mem_cons_self c t) h₂
  | cons c t ih =>
    cases a₂ with
    | nil =>
      simp only [List.nil_append, List.cons_append, List.cons.injEq] at h
      exact absurd (h.1 ▸ List.mem_cons_self c t) h₁
    | cons d t₂ =>
      simp only [List.cons_append, List.cons.injEq] at h
      have := ih (fun hm => h₁ (List.mem_cons_of_mem c hm))
        (fun hm => h₂ (List.mem_cons_of_mem d hm)) h.2
      exact ⟨by rw [h.1, this.1], this.2⟩

theorem vKey_inj {v w : VEv} (hv : ':' ∉ v.1.1.data) (hw : ':' ∉ w.1.1.data)
    (h : vKey v = vKey w) : v.1 = w.1 := by
  unfold vKey at h
  have hdata : v.1.1.data ++ ':' :: v.1.2.data = w.1.1.data ++ ':' :: w.1.2.data := by
    have h2 := congrArg String.data h
    have hcolon : (":" : String).data = [':'] := rfl
    simpa [String.data_append, hcolon, List.append_assoc] using h2
  have hp := append_cons_colon_inj hv hw hdata
  exact Prod.ext (String.ext hp.1) (String.ext hp.2)

theorem vKey_eq_of_pair {v w : VEv} (h : v.1 = w.1) : vKey v = vKey w := by
  unfold vKey
  rw [h]

theorem dropWhile_head_false {α : Type*} (p : α → Bool) (l : List α) {a : α}
    {t : List α} (h : l.dropWhile p = a :: t) : p a = false := by
  induction l with
  | nil => simp at h
  | cons b l ih =>
    rw [List.dropWhile_cons] at h
    by_cases hb : p b = true
    · rw [if_pos hb] at h
      exact ih h
    · rw [if_neg hb] at h
      cases h
      exact eq_false_of_ne_true hb

/-- In a sorted (by the pair order) valid-event list, once the leading run of
the head's key string ends, that key string never recurs — provided the user
ids are colon-free, so that key strings determine pairs. -/
theorem dropWhile_key_ne (v : VEv) (V : List VEv)
    (hs : List.Pairwise (fun a b : VEv => pairLe a.1 b.1) (v :: V))
    (hc : ∀ w ∈ v :: V, ':' ∉ w.1.1.data) :
    ∀ x ∈ V.dropWhile (fun b => vKey b = vKey v), vKey x ≠ vKey v := by
  intro x hx hkey
  rcases hdd : V.dropWhile (fun b => vKey b = vKey v) with _ | ⟨d₀, d'⟩
  · rw [hdd] at hx
    exact absurd hx (List.not_mem_nil x)
  · have hhead : ¬ (vKey d₀ = vKey v) := by
      have := dropWhile_head_false (fun b => decide (vKey b = vKey v)) V hdd
      simpa using this
    have hsubV : (d₀ :: d') <:+ V := hdd ▸ List.dropWhile_suffix _
    have hmemV : ∀ y ∈ d₀ :: d', y ∈ V := fun y hy => hsubV.sublist.subset hy
    rw [hdd] at hx
    rcases List.mem_cons.mp hx with rfl | hx'
    · exact hhead hkey
    · have hpV : List.Pairwise (fun a b : VEv => pairLe a.1 b.1) V :=
        (List.pairwise_cons.mp hs).2
      have hpd : List.Pairwise (fun a b : VEv => pairLe a.1 b.1) (d₀ :: d') :=
        hpV.sublist hsubV.sublist
      have hd₀x : pairLe d₀.1 x.1 := (List.pairwise_cons.mp hpd).1 x hx'
      have hvd₀ : pairLe v.1 d₀.1 :=
        (List.pairwise_cons.mp hs).1 d₀ (hmemV d₀ (List.mem_cons_self _ _))
      have hxmem : x ∈ V := hmemV x (List.mem_cons_of_mem d₀ hx')
      have hpair : x.1 = v.1 :=
        vKey_inj (hc x (List.mem_cons_of_mem v hxmem))
          (hc v (List.mem_cons_self _ _)) hkey
      rw [hpair] at hd₀x
      have : v.1 = d₀.1 := pairLe_antisymm hvd₀ hd₀x
      exact hhead (vKey_eq_of_pair (v := d₀) (w := v) this.symm)

/-- In a sorted colon-free valid-event list, the runs have pairwise distinct
key strings. -/
theorem runs_keys_nodup (V : List VEv)
    (hs : List.Pairwise (fun a b : VEv => pairLe a.1 b.1) V)
    (hc : ∀ w ∈ V, ':' ∉ w.1.1.data) :
    ((runs vKey V).map (fun r => vKey r.1)).Nodup := by
  have H : ∀ n (V : List VEv), V.length ≤ n →
      List.Pairwise (fun a b : VEv => pairLe a.1 b.1) V →
      (∀ w ∈ V, ':' ∉ w.1.1.data) →
      ((runs vKey V).map (fun r => vKey r.1)).Nodup := by
    intro n
    induction n with
    | zero =>
      intro V hV _ _
      rw [List.length_eq_zero.mp (Nat.le_zero.mp hV), runs]
      exact List.nodup_nil
    | succ n ih =>
      intro V hV hsV hcV
      cases V with
      | nil => rw [runs]; exact List.nodup_nil
      | cons v V' =>
        rw [runs, List.map_cons, List.nodup_cons]
        set d := V'.dropWhile (fun b => vKey b = vKey v) with hd
        have hsubV' : d <:+ V' := List.dropWhile_suffix _
        constructor
        · intro hmem
          rcases List.mem_map.mp hmem with ⟨r, hr, hkr⟩
          have hr1 : r.1 ∈ d := runs_head_mem vKey d hr
          exact dropWhile_key_ne v V' hsV hcV r.1 hr1 hkr
        · have hdl : d.length ≤ n := by
            have h1 : d.length ≤ V'.length := List.Sublist.length_le hsubV'.sublist
            exact Nat.le_trans h1 (Nat.le_of_succ_le_succ hV)
          have hsd : List.Pairwise (fun a b : VEv => pairLe a.1 b.1) d :=
            (List.pairwise_cons.mp hsV).2.sublist hsubV'.sublist
          have hcd : ∀ w ∈ d, ':' ∉ w.1.1.data := fun w hw =>
            hcV w (List.mem_cons_of_mem v (hsubV'.sublist.subset hw))
          exact ih d hdl hsd hcd
  exact H (V.length) V (Nat.le_refl _) hs hc

theorem countP_flatten' {α : Type*} (p : α → Bool) (L : List (List α)) :
    L.flatten.countP p = (L.map (fun l => l.countP p)).sum := by
  induction L with
  | nil => rfl
  | cons l L ih => rw [List.flatten_cons, List.countP_append, List.map_cons,
      List.sum_cons, ih]

/-- Counting a key-restricted predicate over the whole valid-event list
reduces to counting inside that key's unique run. -/
theorem countP_key_eq_run (V : List VEv)
    (hs : List.Pairwise (fun a b : VEv => pairLe a.1 b.1) V)
    (hc : ∀ w ∈ V, ':' ∉ w.1.1.data)
    {r : VEv × List VEv} (hr : r ∈ runs vKey V) (p : VEv → Bool) :
    V.countP (fun x => decide (x.1 = r.1.1) && p x) = (runElems r).countP p := by
  have hall : ∀ x ∈ runElems r, x.1 = r.1.1 := by
    intro x hx
    rcases List.mem_cons.mp hx with rfl | hx'
    · rfl
    · have hk : vKey x = vKey r.1 := runs_run_key vKey V hr x hx'
      have hxV : x ∈ V := runs_elem_mem vKey V hr hx
      have hrV : r.1 ∈ V := runs_head_mem vKey V hr
      have := vKey_inj (hc x hxV) (hc r.1 hrV) hk
      rw [this]
  have hother : ∀ r' ∈ runs vKey V, vKey r'.1 ≠ vKey r.1 →
      ∀ x ∈ runElems r', ¬ (x.1 = r.1.1) := by
    intro r' hr' hne x hx hpe
    have hk : vKey x = vKey r'.1 := by
      rcases List.mem_cons.mp hx with rfl | hx'
      · rfl
      · exact runs_run_key vKey V hr' x hx'
    have : vKey x = vKey r.1 := by
      show x.1.1 ++ ":" ++ x.1.2 = r.1.1.1 ++ ":" ++ r.1.1.2
      rw [show x.1 = r.1.1 from hpe]
    exact hne (hk ▸ this)
  have hnd := runs_keys_nodup V hs hc
  conv_lhs => rw [← runs_join vKey V]
  rw [countP_flatten', List.map_map]
  -- Sum over the runs: the run r contributes everything, the others nothing.
  have H : ∀ rs : List (VEv × List VEv), r ∈ rs →
      (rs.map (fun r' => vKey r'.1)).Nodup →
      (∀ r' ∈ rs, vKey r'.1 ≠ vKey r.1 → ∀ x ∈ runElems r', ¬ (x.1 = r.1.1)) →
      (rs.map ((fun l => l.countP (fun x => decide (x.1 = r.1.1) && p x)) ∘
        runElems)).sum = (runElems r).countP p := by
    intro rs
    induction rs with
    | nil => intro h; exact absurd h (List.not_mem_nil r)
    | cons r₀ rs' ih =>
      intro hmem hnd₀ hoth
      rw [List.map_cons, List.sum_cons]
      by_cases hre : vKey r₀.1 = vKey r.1
      · -- this is the unique run with our key; show r₀'s block counts as p
        -- and the remaining runs count 0
        have hkey_r₀ : ∀ r' ∈ rs', vKey r'.1 ≠ vKey r₀.1 := by
          intro r' hr' hcontra
          have h1 : vKey r'.1 ∈ rs'.map (fun r'' => vKey r''.1) :=
            List.mem_map_of_mem (fun r'' => vKey r''.1) hr'
          rw [hcontra] at h1
          exact (List.nodup_cons.mp hnd₀).1 h1
        have hr₀r : r₀ = r := by
          rcases List.mem_cons.mp hmem with h | h
          · exact h.symm
          · exact absurd hre.symm (hkey_r₀ r h)
        subst hr₀r
        have htail : (rs'.map ((fun l =>
            l.countP (fun x => decide (x.1 = r₀.1.1) && p x)) ∘ runElems)).sum = 0 := by
          apply List.sum_eq_zero
          intro y hy
          rcases List.mem_map.mp hy with ⟨r', hr', hval⟩
          rw [← hval]
          simp only [Function.comp_apply]
          apply List.countP_eq_zero.mpr
          intro x hx
          have := hoth r' (List.mem_cons_of_mem r₀ hr') (hkey_r₀ r' hr') x hx
          simp [this]
        rw [htail, Nat.add_zero, Function.comp_apply]
        apply List.countP_congr
        intro x hx
        have := hall x hx
        simp [this]
      · -- not our run: contributes 0, recurse on the tail
        have hr₀0 : (runElems r₀).countP
            (fun x => decide (x.1 = r.1.1) && p x) = 0 := by
          apply List.countP_eq_zero.mpr
          intro x hx
          have := hoth r₀ (List.mem_cons_self _ _) hre x hx
          simp [this]
        have hrmem : r ∈ rs' := by
          rcases List.mem_cons.mp hmem with h | h
          · exact absurd (congrArg (fun z => vKey z.1) h.symm) hre
          · exact h
        rw [Function.comp_apply, hr₀0, Nat.zero_add]
        exact ih hrmem (List.nodup_cons.mp hnd₀).2
          (fun r' hr' => hoth r' (List.mem_cons_of_mem r₀ hr'))
  exact H (runs vKey V) hr hnd hother

/-- The filter analogue of `countP_key_eq_run`: the whole-log events of one
run's key are exactly that run. -/
theorem filter_key_eq_run (V : List VEv)
    (hs : List.Pairwise (fun a b : VEv => pairLe a.1 b.1) V)
    (hc : ∀ w ∈ V, ':' ∉ w.1.1.data)
    {r : VEv × List VEv} (hr : r ∈ runs vKey V) :
    V.filter (fun x => decide (x.1 = r.1.1)) = runElems r := by
  have hall : ∀ x ∈ runElems r, x.1 = r.1.1 := by
    intro x hx
    rcases List.mem_cons.mp hx with rfl | hx'
    · rfl
    · have hk : vKey x = vKey r.1 := runs_run_key vKey V hr x hx'
      have hxV : x ∈ V := runs_elem_mem vKey V hr hx
      have hrV : r.1 ∈ V := runs_head_mem vKey V hr
      have := vKey_inj (hc x hxV) (hc r.1 hrV) hk
      rw [this]
  have hother : ∀ r' ∈ runs vKey V, vKey r'.1 ≠ vKey r.1 →
      ∀ x ∈ runElems r', ¬ (x.1 = r.1.1) := by
    intro r' hr' hne x hx hpe
    have hk : vKey x = vKey r'.1 := by
      rcases List.mem_cons.mp hx with rfl | hx'
      · rfl
      · exact runs_run_key vKey V hr' x hx'
    have : vKey x = vKey r.1 := by
      show x.1.1 ++ ":" ++ x.1.2 = r.1.1.1 ++ ":" ++ r.1.1.2
      rw [show x.1 = r.1.1 from hpe]
    exact hne (hk ▸ this)
  have hnd := runs_keys_nodup V hs hc
  conv_lhs => rw [← runs_join vKey V]
  have H : ∀ rs : List (VEv × List VEv), r ∈ rs →
      (rs.map (fun r' => vKey r'.1)).Nodup →
      (∀ r' ∈ rs, vKey r'.1 ≠ vKey r.1 → ∀ x ∈ runElems r', ¬ (x.1 = r.1.1)) →
      ((rs.map runElems).flatten).filter (fun x => decide (x.1 = r.1.1)) =
        runElems r := by
    intro rs
    induction rs with
    | nil => intro h; exact absurd h (List.not_mem_nil r)
    | cons r₀ rs' ih =>
      intro hmem hnd₀ hoth
      rw [List.map_cons, List.flatten_cons, List.filter_append]
      by_cases hre : vKey r₀.1 = vKey r.1
      · have hkey_r₀ : ∀ r' ∈ rs', vKey r'.1 ≠ vKey r₀.1 := by
          intro r' hr' hcontra
          have h1 : vKey r'.1 ∈ rs'.map (fun r'' => vKey r''.1) :=
            List.mem_map_of_mem (fun r'' => vKey r''.1) hr'
          rw [hcontra] at h1
          exact (List.nodup_cons.mp hnd₀).1 h1
        have hr₀r : r₀ = r := by
          rcases List.mem_cons.mp hmem with h | h
          · exact h.symm
          · exact absurd hre.symm (hkey_r₀ r h)
        subst hr₀r
        have hhead : (runElems r₀).filter (fun x => decide (x.1 = r₀.1.1)) =
            runElems r₀ := by
          apply List.filter_eq_self.mpr
          intro x hx
          simp [hall x hx]
        have htail : ((rs'.map runElems).flatten).filter
            (fun x => decide (x.1 = r₀.1.1)) = [] := by
          apply List.filter_eq_nil_iff.mpr
          intro x hx
          rcases List.mem_flatten.mp hx with ⟨l, hl, hxl⟩
          rcases List.mem_map.mp hl with ⟨r', hr', rfl⟩
          have := hoth r' (List.mem_cons_of_mem r₀ hr') (hkey_r₀ r' hr') x hxl
          simp [this]
        rw [hhead, htail, List.append_nil]
      · have hhead : (runElems r₀).filter (fun x => decide (x.1 = r.1.1)) = [] := by
          apply List.filter_eq_nil_iff.mpr
          intro x hx
          have := hoth r₀ (List.mem_cons_self _ _) hre x hx
          simp [this]
        have hrmem : r ∈ rs' := by
          rcases List.mem_cons.mp hmem with h | h
          · exact absurd (congrArg (fun z => vKey z.1) h.symm) hre
          · exact h
        rw [hhead, List.nil_append]
        exact ih hrmem (List.nodup_cons.mp hnd₀).2
          (fun r' hr' => hoth r' (List.mem_cons_of_mem r₀ hr'))
  exact H (runs vKey V) hr hnd hother

/-! ### Projections of a flushed row and of a run's accumulator -/

theorem flushRow_user (cache : String → Option ℚ) (now : ℤ) (c : Acc) :
    (flushRow cache now c).user_id = c.user_id := rfl

theorem flushRow_song (cache : String → Option ℚ) (now : ℤ) (c : Acc) :
    (flushRow cache now c).song_id = c.song_id := rfl

theorem flushRow_play (cache : String → Option ℚ) (now : ℤ) (c : Acc) :
    (flushRow cache now c).play_count = c.play_count := rfl

theorem flushRow_skip (cache : String → Option ℚ) (now : ℤ) (c : Acc) :
    (flushRow cache now c).skip_count = c.skip_count := rfl

theorem flushRow_complete (cache : String → Option ℚ) (now : ℤ) (c : Acc) :
    (flushRow cache now c).complete_count = c.complete_count := rfl

theorem flushRow_total (cache : String → Option ℚ) (now : ℤ) (c : Acc) :
    (flushRow cache now c).total_play_duration = c.total_play_duration := rfl

theorem flushRow_avg (cache : String → Option ℚ) (now : ℤ) (c : Acc) :
    (flushRow cache now c).avg_play_duration =
      if c.play_count > 0 then jsRound (c.total_play_duration / c.play_count)
      else 0 := rfl

theorem flushRow_rate (cache : String → Option ℚ) (now : ℤ) (c : Acc) :
    (flushRow cache now c).completion_rate =
      if ((cache c.song_id).getD 0) > 0 then
        clamp01 (c.total_play_duration / ((cache c.song_id).getD 0))
      else 0 := rfl

theorem flushRow_last (cache : String → Option ℚ) (now : ℤ) (c : Acc) :
    (flushRow cache now c).last_played_at = c.last_played_ms.getD now := rfl

theorem flushRow_updated (cache : String → Option ℚ) (now : ℤ) (c : Acc) :
    (flushRow cache now c).updated_at = now := rfl

theorem rowPair_flushRow (cache : String → Option ℚ) (now : ℤ) (c : Acc) :
    rowPair (flushRow cache now c) = (c.user_id, c.song_id) := rfl

theorem runAcc_user (r : VEv × List VEv) : (runAcc r).user_id = r.1.1.1 := by
  unfold runAcc
  rw [foldl_vStep_user]
  rfl

theorem runAcc_song (r : VEv × List VEv) : (runAcc r).song_id = r.1.1.2 := by
  unfold runAcc
  rw [foldl_vStep_song]
  rfl

theorem runAcc_play (r : VEv × List VEv) :
    (runAcc r).play_count = (runElems r).countP vIsPlay := by
  unfold runAcc
  rw [foldl_vStep_play]
  show 0 + _ = _
  rw [Nat.zero_add]

theorem runAcc_skip (r : VEv × List VEv) :
    (runAcc r).skip_count = (runElems r).countP vIsSkip := by
  unfold runAcc
  rw [foldl_vStep_skip]
  show 0 + _ = _
  rw [Nat.zero_add]

theorem runAcc_complete (r : VEv × List VEv) :
    (runAcc r).complete_count = (runElems r).countP vIsComplete := by
  unfold runAcc
  rw [foldl_vStep_complete]
  show 0 + _ = _
  rw [Nat.zero_add]

theorem runAcc_total (r : VEv × List VEv) :
    (runAcc r).total_play_duration = ((runElems r).map vDur).sum := by
  unfold runAcc
  rw [foldl_vStep_total]
  show (0 : ℚ) + _ = _
  rw [zero_add]

/-! ### The store model of the feature upsert -/

theorem upsertRows_snoc (rows : List FeatureRow) (r : FeatureRow) :
    upsertRows (rows ++ [r]) =
      fun k => if k = rowPair r then some r else upsertRows rows k := by
  unfold upsertRows
  rw [List.foldl_append, List.foldl_cons, List.foldl_nil]

/-- Upserting a row list in order leaves, at each key, the last row of that
key: later rows overwrite earlier ones. -/
theorem upsertRows_getLast (rows : List FeatureRow) (k : String × String) :
    upsertRows rows k =
      (rows.filter (fun r => decide (rowPair r = k))).getLast? := by
  induction rows using List.reverseRecOn with
  | nil => rfl
  | append_singleton rows r ih =>
    rw [upsertRows_snoc, List.filter_append]
    show (if k = rowPair r then some r else upsertRows rows k) = _
    by_cases hk : rowPair r = k
    · have hf : List.filter (fun r' => decide (rowPair r' = k)) [r] = [r] := by
        simp [hk]
      rw [hf, List.getLast?_concat]
      exact if_pos hk.symm
    · have hf : List.filter (fun r' => decide (rowPair r' = k)) [r] = [] := by
        simp [hk]
      rw [hf, List.append_nil, if_neg (fun hh => hk hh.symm)]
      exact ih

/-! ## Concrete inputs used by the aggregator claims -/

def c1wEv1 : Event := ⟨some "u1", some "s1", some "play", .missing, none⟩
def c1wEv2 : Event := ⟨some "u2", some "s1", some "skip", .missing, none⟩
def c1wPages : List (List Event) := [[c1wEv1], [c1wEv2]]
def c1xEv1 : Event := ⟨some "a", some "b:c", some "play", .missing, none⟩
def c1xEv2 : Event := ⟨some "a:b", some "c", some "play", .missing, none⟩

def scenA1 : Event := ⟨some "u1", some "s1", some "play", .num 30, some 1⟩
def scenA2 : Event := ⟨some "u1", some "s1", some "play", .num 40, some 2⟩
def scenA3 : Event := ⟨some "u1", some "s1", some "skip", .missing, some 3⟩
def scenACache : String → Option ℚ := fun s => if s = "s1" then some 100 else none
def scenARow : FeatureRow :=
  { user_id := "u1", song_id := "s1", play_count := 2, skip_count := 1,
    complete_count := 0, total_play_duration := 70, avg_play_duration := 35,
    completion_rate := 7/10, last_played_at := 3, updated_at := 0 }

def c3xEv : Event := ⟨some "u", some "s", some "play", .missing, none⟩
def c3wEv : Event := ⟨some "uw", some "sw", some "complete", .num 5, some 9⟩

def c8wEv : Event := ⟨some "u8", some "s8", some "Play ", .num (-3), some 4⟩

def c10xEv1 : Event := ⟨some "x", some "y:z", some "play", .missing, none⟩
def c10xEv2 : Event := ⟨some "x:y", some "z", some "skip", .missing, none⟩

/-- An event's duration is missing/null, non-numeric, or negative — the cases
the spec says are treated as 0. -/
def invalidDur (v : JsVal) : Prop :=
  v = .missing ∨ jsNumber v = none ∨ ∃ q, jsNumber v = some q ∧ q < 0

theorem invalidDur_zero {v : JsVal} (h : invalidDur v) :
    toNonNegativeNumber v = 0 := by
  rcases h with rfl | h | ⟨q, hq, hneg⟩
  · rfl
  · cases v <;> simp [toNonNegativeNumber, h] <;> simp_all [jsNumber]
  · cases v <;> simp_all [toNonNegativeNumber, jsNumber] <;> simp [hq, hneg]

/-! ## Claim C1 -/

/-- C1 (amended): for pages whose valid events are sorted by normalized
(user_id, song_id) and whose normalized user_ids contain no ':', the
aggregator emits exactly one row per distinct normalized key, with
play/skip/complete counters counting exactly the events of that key whose
normalized kind is "play"/"skip"/"complete", and all of the key's events
contributing to the total. -/
theorem C1_sorted_one_row_per_key
    (pages : List (List Event)) (cache : String → Option ℚ) (now : ℤ)
    (hs : List.Pairwise (fun a b : VEv => pairLe a.1 b.1) (validEvents pages.flatten))
    (hc : ∀ w ∈ validEvents pages.flatten, ':' ∉ w.1.1.data) :
    ((aggregateUserSongFeatures cache now pages).map rowPair).Nodup
    ∧ (∀ k : String × String,
        k ∈ (aggregateUserSongFeatures cache now pages).map rowPair ↔
          k ∈ (validEvents pages.flatten).map (fun v => v.1))
    ∧ (∀ r ∈ aggregateUserSongFeatures cache now pages,
        r.play_count = (validEvents pages.flatten).countP
            (fun v => decide (v.1 = rowPair r) && vIsPlay v)
        ∧ r.skip_count = (validEvents pages.flatten).countP
            (fun v => decide (v.1 = rowPair r) && vIsSkip v)
        ∧ r.complete_count = (validEvents pages.flatten).countP
            (fun v => decide (v.1 = rowPair r) && vIsComplete v)
        ∧ r.total_play_duration =
            (((validEvents pages.flatten).filter
              (fun v => decide (v.1 = rowPair r))).map vDur).sum) := by
  have hrows : aggregateUserSongFeatures cache now pages =
      (runs vKey (validEvents pages.flatten)).map
        (fun r => flushRow cache now (runAcc r)) := by
    unfold aggregateUserSongFeatures
    rw [aggRuns_eq_runs, List.map_map]
    rfl
  have hpairs : (aggregateUserSongFeatures cache now pages).map rowPair =
      (runs vKey (validEvents pages.flatten)).map (fun r => r.1.1) := by
    rw [hrows, List.map_map]
    apply List.map_congr_left
    intro r _
    show rowPair (flushRow cache now (runAcc r)) = r.1.1
    rw [rowPair_flushRow, runAcc_user, runAcc_song]
  refine ⟨?_, ?_, ?_⟩
  · rw [hpairs]
    have hkeys := runs_keys_nodup (validEvents pages.flatten) hs hc
    have hcomp : ((runs vKey (validEvents pages.flatten)).map
        (fun r => vKey r.1)) =
        (((runs vKey (validEvents pages.flatten)).map (fun r => r.1.1)).map
          (fun p => p.1 ++ ":" ++ p.2)) := by
      rw [List.map_map]
      rfl
    rw [hcomp] at hkeys
    exact hkeys.of_map
  · intro k
    rw [hpairs]
    constructor
    · intro hk
      rcases List.mem_map.mp hk with ⟨r, hr, rfl⟩
      exact List.mem_map_of_mem _ (runs_head_mem vKey _ hr)
    · intro hk
      rcases List.mem_map.mp hk with ⟨v, hv, rfl⟩
      have hvin : v ∈ ((runs vKey (validEvents pages.flatten)).map
          runElems).flatten := by
        rw [runs_join]
        exact hv
      rcases List.mem_flatten.mp hvin with ⟨l, hl, hvl⟩
      rcases List.mem_map.mp hl with ⟨r, hr, rfl⟩
      have hpair : v.1 = r.1.1 := by
        rcases List.mem_cons.mp hvl with rfl | hv2
        · rfl
        · exact vKey_inj (hc v hv) (hc r.1 (runs_head_mem vKey _ hr))
            (runs_run_key vKey _ hr v hv2)
      rw [hpair]
      exact List.mem_map_of_mem _ hr
  · intro r hr
    rw [hrows] at hr
    rcases List.mem_map.mp hr with ⟨run, hrun, rfl⟩
    have hrp : rowPair (flushRow cache now (runAcc run)) = run.1.1 := by
      rw [rowPair_flushRow, runAcc_user, runAcc_song]
    refine ⟨?_, ?_, ?_, ?_⟩
    · rw [flushRow_play, runAcc_play, hrp,
        countP_key_eq_run (validEvents pages.flatten) hs hc hrun vIsPlay]
    · rw [flushRow_skip, runAcc_skip, hrp,
        countP_key_eq_run (validEvents pages.flatten) hs hc hrun vIsSkip]
    · rw [flushRow_complete, runAcc_complete, hrp,
        countP_key_eq_run (validEvents pages.flatten) hs hc hrun vIsComplete]
    · rw [flushRow_total, runAcc_total, hrp,
        filter_key_eq_run (validEvents pages.flatten) hs hc hrun]

/-- C1's amended theorem at a concrete sorted two-key log. -/
theorem C1_sorted_one_row_per_key_witness :
    ((aggregateUserSongFeatures (fun _ => none) 0 c1wPages).map rowPair).Nodup
    ∧ (∀ k : String × String,
        k ∈ (aggregateUserSongFeatures (fun _ => none) 0 c1wPages).map rowPair ↔
          k ∈ (validEvents c1wPages.flatten).map (fun v => v.1))
    ∧ (∀ r ∈ aggregateUserSongFeatures (fun _ => none) 0 c1wPages,
        r.play_count = (validEvents c1wPages.flatten).countP
            (fun v => decide (v.1 = rowPair r) && vIsPlay v)
        ∧ r.skip_count = (validEvents c1wPages.flatten).countP
            (fun v => decide (v.1 = rowPair r) && vIsSkip v)
        ∧ r.complete_count = (validEvents c1wPages.flatten).countP
            (fun v => decide (v.1 = rowPair r) && vIsComplete v)
        ∧ r.total_play_duration =
            (((validEvents c1wPages.flatten).filter
              (fun v => decide (v.1 = rowPair r))).map vDur).sum) :=
  C1_sorted_one_row_per_key c1wPages (fun _ => none) 0 (by decide) (by decide)

/-- C1 as stated is false: two distinct normalized keys — ("a","b:c") and
("a:b","c"), sorted — produce a single row, because the aggregator compares
the concatenated string user_id + ":" + song_id. -/
theorem C1_counterexample :
    List.Pairwise (fun a b : VEv => pairLe a.1 b.1) (validEvents [c1xEv1, c1xEv2])
    ∧ ((validEvents [c1xEv1, c1xEv2]).map (fun v => v.1)).dedup.length = 2
    ∧ (aggregateUserSongFeatures (fun _ => none) 0 [[c1xEv1, c1xEv2]]).length = 1 := by
  refine ⟨by decide, by decide, ?_⟩
  decide

/-! ## Claim C2 -/

/-- C2: on every flushed row, avg_play_duration is round(total/playCount)
when playCount > 0 and 0 otherwise, and completion_rate is
clamp(total/referenceDuration, 0, 1) when the cached reference duration is
positive and 0 otherwise; and Scenario A (play 30, play 40, skip; reference
duration 100) yields exactly the row (2, 1, 0, 70, 35, 0.70). -/
theorem C2_flush_formulas_and_scenario :
    (∀ (pages : List (List Event)) (cache : String → Option ℚ) (now : ℤ),
      ∀ r ∈ aggregateUserSongFeatures cache now pages,
        r.avg_play_duration =
          (if r.play_count > 0 then
            jsRound (r.total_play_duration / r.play_count) else 0)
        ∧ r.completion_rate =
          (if ((cache r.song_id).getD 0) > 0 then
            clamp01 (r.total_play_duration / ((cache r.song_id).getD 0))
          else 0))
    ∧ aggregateUserSongFeatures scenACache 0 [[scenA1, scenA2, scenA3]] =
        [scenARow] := by
  constructor
  · intro pages cache now r hr
    rcases List.mem_map.mp hr with ⟨c, _, rfl⟩
    exact ⟨by rw [flushRow_avg, flushRow_play, flushRow_total],
           by rw [flushRow_rate, flushRow_song, flushRow_total]⟩
  · simp [aggregateUserSongFeatures, aggRuns, aggStep, updateAcc, initAcc,
      flushRow, accKey, normalizeId, normEventType, jsTrim, jsToLower,
      toNonNegativeNumber, jsNumber, scenACache, scenA1, scenA2, scenA3,
      scenARow, clamp01, jsRound, FeatureRow.mk.injEq]
    norm_num [Int.floor_eq_iff]

/-- C2's flush formulas applied to the concrete Scenario A row. -/
theorem C2_flush_formulas_witness :
    scenARow.avg_play_duration =
      (if scenARow.play_count > 0 then
        jsRound (scenARow.total_play_duration / scenARow.play_count) else 0)
    ∧ scenARow.completion_rate =
      (if ((scenACache scenARow.song_id).getD 0) > 0 then
        clamp01 (scenARow.total_play_duration / ((scenACache scenARow.song_id).getD 0))
      else 0) :=
  C2_flush_formulas_and_scenario.1 [[scenA1, scenA2, scenA3]] scenACache 0 scenARow
    (by rw [C2_flush_formulas_and_scenario.2]; exact List.mem_singleton.mpr rfl)

/-! ## Claim C3 -/

/-- C3 as stated is false: the very same log aggregated at two different wall
clock instants (updated_at stamps 0 and 1) yields rows that differ —
updated_at always differs, and for a group with no parseable timestamp
last_played_at (which falls back to the wall clock) differs too. -/
theorem C3_counterexample :
    aggregateUserSongFeatures (fun _ => none) 0 [[c3xEv]] ≠
      aggregateUserSongFeatures (fun _ => none) 1 [[c3xEv]] := by
  intro h
  have h2 := congrArg (List.map (fun r => r.updated_at)) h
  simp [aggregateUserSongFeatures, aggRuns, aggStep, updateAcc, initAcc,
    flushRow, accKey, normalizeId, normEventType, jsTrim, jsToLower, c3xEv] at h2

/-- C3 (amended): two runs over an unchanged log and song table produce the
same number of rows, pairwise identical in every field except updated_at
(the wall clock at flush) and, for groups in which no event carried a
parseable timestamp, last_played_at (which falls back to that wall clock). -/
theorem C3_stable_across_runs
    (pages : List (List Event)) (cache : String → Option ℚ) (now₁ now₂ : ℤ) :
    (aggregateUserSongFeatures cache now₁ pages).length =
      (aggregateUserSongFeatures cache now₂ pages).length
    ∧ List.Forall₂ (fun r₁ r₂ : FeatureRow =>
        (r₁.user_id = r₂.user_id ∧ r₁.song_id = r₂.song_id
          ∧ r₁.play_count = r₂.play_count ∧ r₁.skip_count = r₂.skip_count
          ∧ r₁.complete_count = r₂.complete_count
          ∧ r₁.total_play_duration = r₂.total_play_duration
          ∧ r₁.avg_play_duration = r₂.avg_play_duration
          ∧ r₁.completion_rate = r₂.completion_rate)
        ∧ (r₁.last_played_at = r₂.last_played_at
          ∨ (r₁.last_played_at = now₁ ∧ r₂.last_played_at = now₂)))
      (aggregateUserSongFeatures cache now₁ pages)
      (aggregateUserSongFeatures cache now₂ pages) := by
  unfold aggregateUserSongFeatures
  refine ⟨by rw [List.length_map, List.length_map], ?_⟩
  induction aggRuns pages with
  | nil => exact List.Forall₂.nil
  | cons c t ih =>
    refine List.Forall₂.cons ⟨⟨rfl, rfl, rfl, rfl, rfl, rfl, rfl, rfl⟩, ?_⟩ ih
    rw [flushRow_last, flushRow_last]
    cases c.last_played_ms with
    | none => exact Or.inr ⟨rfl, rfl⟩
    | some m => exact Or.inl rfl

/-! ## Claim C8 -/

/-- C8: an event whose play_duration is missing, non-numeric or negative is
not dropped — it still bumps the counter of its normalized kind, and leaves
the group's running total unchanged; with non-empty identifiers it still
opens or extends the current group. -/
theorem C8_invalid_duration_kept (c : Acc) (e : Event)
    (hd : invalidDur e.play_duration) :
    ((updateAcc c e).total_play_duration = c.total_play_duration
      ∧ (updateAcc c e).play_count = c.play_count +
          (if normEventType e.event_type = "play" then 1 else 0)
      ∧ (updateAcc c e).skip_count = c.skip_count +
          (if normEventType e.event_type = "skip" then 1 else 0)
      ∧ (updateAcc c e).complete_count = c.complete_count +
          (if normEventType e.event_type = "complete" then 1 else 0))
    ∧ ∀ (st : Option Acc × List Acc) (uid sid : String),
        normalizeId e.user_id = some uid → normalizeId e.song_id = some sid →
        ∃ c₀ : Acc, (aggStep st e).1 = some (updateAcc c₀ e) := by
  constructor
  · rw [updateAcc_eq]
    refine ⟨?_, rfl, rfl, rfl⟩
    show c.total_play_duration + toNonNegativeNumber e.play_duration = _
    rw [invalidDur_zero hd, add_zero]
  · intro st uid sid hu hsid
    rcases st with ⟨cur, out⟩
    cases cur with
    | none => exact ⟨initAcc uid sid, by simp [aggStep, hu, hsid]⟩
    | some c₁ =>
      by_cases hk : accKey c₁ ≠ uid ++ ":" ++ sid
      · exact ⟨initAcc uid sid, by simp [aggStep, hu, hsid, hk]⟩
      · exact ⟨c₁, by simp [aggStep, hu, hsid, hk]⟩

/-- C8's theorem at a concrete event: kind " Play " (normalizes to "play"),
duration -3 (negative, treated as 0). -/
theorem C8_invalid_duration_kept_witness :
    ((updateAcc (initAcc "u8" "s8") c8wEv).total_play_duration =
        (initAcc "u8" "s8").total_play_duration
      ∧ (updateAcc (initAcc "u8" "s8") c8wEv).play_count =
          (initAcc "u8" "s8").play_count +
          (if normEventType c8wEv.event_type = "play" then 1 else 0)
      ∧ (updateAcc (initAcc "u8" "s8") c8wEv).skip_count =
          (initAcc "u8" "s8").skip_count +
          (if normEventType c8wEv.event_type = "skip" then 1 else 0)
      ∧ (updateAcc (initAcc "u8" "s8") c8wEv).complete_count =
          (initAcc "u8" "s8").complete_count +
          (if normEventType c8wEv.event_type = "complete" then 1 else 0))
    ∧ ∀ (st : Option Acc × List Acc) (uid sid : String),
        normalizeId c8wEv.user_id = some uid →
        normalizeId c8wEv.song_id = some sid →
        ∃ c₀ : Acc, (aggStep st c8wEv).1 = some (updateAcc c₀ c8wEv) :=
  C8_invalid_duration_kept (initAcc "u8" "s8") c8wEv
    (Or.inr (Or.inr ⟨-3, by decide, by norm_num⟩))

/-! ## Claim C10 -/

/-- C10 (amended): on every input, sorted or not, the aggregator emits
exactly one row per maximal run of consecutive valid events sharing the same
key string user_id + ":" + song_id, each row aggregating exactly its own run;
and upserting the rows in order leaves, per (user_id, song_id) key, the last
row emitted for it — later rows overwrite earlier ones. -/
theorem C10_rows_are_key_runs
    (pages : List (List Event)) (cache : String → Option ℚ) (now : ℤ) :
    aggregateUserSongFeatures cache now pages =
      (runs vKey (validEvents pages.flatten)).map
        (fun r => flushRow cache now (runAcc r))
    ∧ ∀ k : String × String,
        upsertRows (aggregateUserSongFeatures cache now pages) k =
          ((aggregateUserSongFeatures cache now pages).filter
            (fun r => decide (rowPair r = k))).getLast? := by
  constructor
  · unfold aggregateUserSongFeatures
    rw [aggRuns_eq_runs, List.map_map]
    rfl
  · intro k
    exact upsertRows_getLast _ k

/-- C10 as stated is false: the two adjacent valid events ("x","y:z") and
("x:y","z") form two maximal runs of equal normalized (user_id, song_id)
pairs, yet the aggregator emits a single row, because its run boundary is
the concatenated key string. -/
theorem C10_counterexample :
    (runs (fun v : VEv => v.1) (validEvents [c10xEv1, c10xEv2])).length = 2
    ∧ (aggregateUserSongFeatures (fun _ => none) 0 [[c10xEv1, c10xEv2]]).length = 1 := by
  constructor
  · have hv : validEvents [c10xEv1, c10xEv2] =
        [(("x", "y:z"), c10xEv1), (("x:y", "z"), c10xEv2)] := by decide
    rw [hv]
    simp [runs]
  · decide

/-! ## Catalog normalization: normalizeSong.js and the ingestion mapper -/

/-- A raw Jamendo track record: every field the two normalizers read,
as a raw JS value. -/
structure RawTrack where
  id : JsVal
  jamendo_id : JsVal
  name : JsVal
  title : JsVal
  artist_name : JsVal
  artist : JsVal
  audio : JsVal
  audio_url : JsVal
  image : JsVal
  image_url : JsVal
  duration : JsVal
  popularity : JsVal
  popularity_total : JsVal
  popularity_week : JsVal
  popularity_month : JsVal
deriving DecidableEq, Repr

/-- The internal song shape produced by `normalizeJamendoTrack`. -/
structure NormSong where
  jamendo_id : String
  title : String
  artist : String
  audio_url : String
  image_url : String
  duration : ℚ
  popularity : ℚ
deriving DecidableEq, Repr

/-- A `songs` table row as built by `mapTrackToSongRow`; `id` is the fresh
UUID and `created_at` the current timestamp, both passed in as parameters
(their values influence nothing else). -/
structure SongRow where
  id : String
  jamendo_id : String
  title : String
  artist : String
  audio_url : String
  image_url : String
  duration : ℚ
  popularity : ℚ
  created_at : ℤ
deriving DecidableEq, Repr

/-- The raw duration after `track.duration ?? 0` and `Number(...)`
(`none` = NaN). -/
def rawDuration (t : RawTrack) : Option ℚ := jsNumber (nvl t.duration (.num 0))

/-- The raw popularity after the fallback chain
`popularity ?? popularity_total ?? popularity_week ?? popularity_month ?? 0`
and `Number(...)`. -/
def rawPopularity (t : RawTrack) : Option ℚ :=
  jsNumber (nvl t.popularity (nvl t.popularity_total
    (nvl t.popularity_week (nvl t.popularity_month (.num 0)))))

/-- `normalizeJamendoTrack` (backend/utils/normalizeSong.js). -/
def normalizeJamendoTrack : Option RawTrack → Option NormSong
  | none => none
  | some t =>
    let jamendoId := nvl t.id t.jamendo_id
    let title := nvl t.name t.title
    let artist := nvl t.artist_name t.artist
    let audioUrl := nvl t.audio t.audio_url
    let imageUrl := nvl t.image t.image_url
    if !(jsTruthy jamendoId) || !(jsTruthy title) || !(jsTruthy artist) ||
        !(jsTruthy audioUrl) then none
    else
      some { jamendo_id := jsString jamendoId,
             title := jsString title,
             artist := jsString artist,
             audio_url := jsString audioUrl,
             image_url := if jsTruthy imageUrl then jsString imageUrl else "",
             duration := (rawDuration t).getD 0,
             popularity := (rawPopularity t).getD 0 }

/-- `mapTrackToSongRow` (ingestion script): like the normalizer but without
the alternate-field fallbacks for the string fields, plus fresh `id` and
`created_at`. -/
def mapTrackToSongRow (uuid : String) (now : ℤ) :
    Option RawTrack → Option SongRow
  | none => none
  | some t =>
    if !(jsTruthy t.id) || !(jsTruthy t.name) || !(jsTruthy t.artist_name) ||
        !(jsTruthy t.audio) then none
    else
      some { id := uuid,
             jamendo_id := jsString t.id,
             title := jsString t.name,
             artist := jsString t.artist_name,
             audio_url := jsString t.audio,
             image_url := if jsTruthy t.image then jsString t.image else "",
             duration := (rawDuration t).getD 0,
             popularity := (rawPopularity t).getD 0,
             created_at := now }

theorem jsTruthy_string_ne_empty {v : JsVal} (h : jsTruthy v = true) :
    jsString v ≠ "" := by
  cases v with
  | missing => exact absurd h (by decide)
  | str s =>
    simp only [jsTruthy] at h
    simpa [jsString] using of_decide_eq_false (by simpa using h)
  | num q => exact jsNumToString_ne_empty q
  | nan => exact absurd h (by decide)
  | bool b =>
    cases b with
    | false => exact absurd h (by decide)
    | true => simp [jsString]

/-! ## Claim C4 -/

def c4xTrack : RawTrack :=
  { id := .str "42", jamendo_id := .missing, name := .str "T",
    title := .missing, artist_name := .str "A", artist := .missing,
    audio := .str "http://a", audio_url := .missing, image := .missing,
    image_url := .missing, duration := .num (-1), popularity := .num (-2),
    popularity_total := .missing, popularity_week := .missing,
    popularity_month := .missing }

def c4xRow : SongRow :=
  { id := "u-1", jamendo_id := "42", title := "T", artist := "A",
    audio_url := "http://a", image_url := "", duration := -1,
    popularity := -2, created_at := 0 }

def c4wTrack : RawTrack :=
  { id := .str "t1", jamendo_id := .missing, name := .str "Song",
    title := .missing, artist_name := .str "Artist", artist := .missing,
    audio := .str "http://audio", audio_url := .missing, image := .missing,
    image_url := .missing, duration := .num 210, popularity := .missing,
    popularity_total := .missing, popularity_week := .missing,
    popularity_month := .missing }

def c4wRow : SongRow :=
  { id := "u-2", jamendo_id := "t1", title := "Song", artist := "Artist",
    audio_url := "http://audio", image_url := "", duration := 210,
    popularity := 0, created_at := 0 }

/-- C4 (amended): every accepted record yields non-empty externalId, title,
artist and audioUrl; durationSeconds and popularity are non-negative
whenever the raw duration/popularity values do not convert to a negative
finite number (a negative raw number is passed through unchanged). -/
theorem C4_accepted_track_fields (t : RawTrack) :
    (∀ (uuid : String) (now : ℤ) (r : SongRow),
      mapTrackToSongRow uuid now (some t) = some r →
        r.jamendo_id ≠ "" ∧ r.title ≠ "" ∧ r.artist ≠ "" ∧ r.audio_url ≠ ""
        ∧ ((∀ q, rawDuration t = some q → 0 ≤ q) → 0 ≤ r.duration)
        ∧ ((∀ q, rawPopularity t = some q → 0 ≤ q) → 0 ≤ r.popularity))
    ∧ (∀ s : NormSong,
      normalizeJamendoTrack (some t) = some s →
        s.jamendo_id ≠ "" ∧ s.title ≠ "" ∧ s.artist ≠ "" ∧ s.audio_url ≠ ""
        ∧ ((∀ q, rawDuration t = some q → 0 ≤ q) → 0 ≤ s.duration)
        ∧ ((∀ q, rawPopularity t = some q → 0 ≤ q) → 0 ≤ s.popularity)) := by
  have hdur : (∀ q, rawDuration t = some q → 0 ≤ q) → 0 ≤ (rawDuration t).getD 0 := by
    intro hq
    cases hh : rawDuration t with
    | none => exact le_refl 0
    | some q => exact hq q hh
  have hpop : (∀ q, rawPopularity t = some q → 0 ≤ q) →
      0 ≤ (rawPopularity t).getD 0 := by
    intro hq
    cases hh : rawPopularity t with
    | none => exact le_refl 0
    | some q => exact hq q hh
  constructor
  · intro uuid now r hr
    rw [mapTrackToSongRow] at hr
    by_cases h : (!(jsTruthy t.id) || !(jsTruthy t.name) ||
        !(jsTruthy t.artist_name) || !(jsTruthy t.audio)) = true
    · rw [if_pos h] at hr
      exact absurd hr (by simp)
    · rw [if_neg h] at hr
      simp only [Bool.or_eq_true, Bool.not_eq_true', not_or] at h
      injection hr with hr
      subst hr
      refine ⟨jsTruthy_string_ne_empty (by simpa using h.1.1.1),
        jsTruthy_string_ne_empty (by simpa using h.1.1.2),
        jsTruthy_string_ne_empty (by simpa using h.1.2),
        jsTruthy_string_ne_empty (by simpa using h.2), hdur, hpop⟩
  · intro s hs
    rw [normalizeJamendoTrack] at hs
    by_cases h : (!(jsTruthy (nvl t.id t.jamendo_id)) ||
        !(jsTruthy (nvl t.name t.title)) ||
        !(jsTruthy (nvl t.artist_name t.artist)) ||
        !(jsTruthy (nvl t.audio t.audio_url))) = true
    · rw [if_pos h] at hs
      exact absurd hs (by simp)
    · rw [if_neg h] at hs
      simp only [Bool.or_eq_true, Bool.not_eq_true', not_or] at h
      injection hs with hs
      subst hs
      refine ⟨jsTruthy_string_ne_empty (by simpa using h.1.1.1),
        jsTruthy_string_ne_empty (by simpa using h.1.1.2),
        jsTruthy_string_ne_empty (by simpa using h.1.2),
        jsTruthy_string_ne_empty (by simpa using h.2), hdur, hpop⟩

/-- C4's amended theorem at a concrete accepted track. -/
theorem C4_accepted_track_fields_witness :
    c4wRow.jamendo_id ≠ "" ∧ c4wRow.title ≠ "" ∧ c4wRow.artist ≠ ""
    ∧ c4wRow.audio_url ≠ ""
    ∧ ((∀ q, rawDuration c4wTrack = some q → 0 ≤ q) → 0 ≤ c4wRow.duration)
    ∧ ((∀ q, rawPopularity c4wTrack = some q → 0 ≤ q) → 0 ≤ c4wRow.popularity) :=
  (C4_accepted_track_fields c4wTrack).1 "u-2" 0 c4wRow (by decide)

/-- C4 as stated is false: a record with raw duration -1 and raw popularity
-2 is accepted (all four required fields present), and the upserted row
carries the negative values through. -/
theorem C4_counterexample :
    mapTrackToSongRow "u-1" 0 (some c4xTrack) = some c4xRow
    ∧ c4xRow.duration < 0 ∧ c4xRow.popularity < 0 := by
  refine ⟨by decide, by norm_num [c4xRow], by norm_num [c4xRow]⟩

/-! ## The ingestion run (the Jamendo fetch-and-store script's main loop) -/

/-- `chunk(array, size)` of the ingestion script, fuel-structured on the
array length (with `safeSize ≥ 1` the source loop makes at most
`array.length` slices, so the fuel never runs out). -/
def chunkGo {α : Type*} (s : ℕ) : ℕ → List α → List (List α)
  | _, [] => []
  | 0, _ :: _ => []
  | f + 1, x :: t => (x :: t).take s :: chunkGo s f ((x :: t).drop s)

def chunk {α : Type*} (array : List α) (size : ℕ) : List (List α) :=
  match array with
  | [] => []
  | _ :: _ => chunkGo (max 1 size) array.length array

theorem chunkGo_flatten {α : Type*} (s : ℕ) (hs : 1 ≤ s) :
    ∀ (f : ℕ) (l : List α), l.length ≤ f → (chunkGo s f l).flatten = l := by
  intro f
  induction f with
  | zero =>
    intro l hl
    rw [List.length_eq_zero.mp (Nat.le_zero.mp hl)]
    rfl
  | succ f ih =>
    intro l hl
    cases l with
    | nil => rfl
    | cons x t =>
      show ((x :: t).take s :: chunkGo s f ((x :: t).drop s)).flatten = x :: t
      rw [List.flatten_cons,
        ih ((x :: t).drop s) (by
          rw [List.length_drop]
          omega),
        List.take_append_drop]

theorem chunk_flatten {α : Type*} (array : List α) (size : ℕ) :
    (chunk array size).flatten = array := by
  cases array with
  | nil => rfl
  | cons x t =>
    show (chunkGo (max 1 size) (x :: t).length (x :: t)).flatten = x :: t
    exact chunkGo_flatten _ (Nat.le_max_left 1 size) _ _ (Nat.le_refl _)

/-- The environment of one ingestion run: the resolved CLI values, the fetch
outcome per (genre, offset) — `none` when all retries were exhausted and the
page was degraded to empty — and the success of each store upsert call in
order. -/
structure IngestCtx where
  limit : ℕ
  batchSize : ℕ
  target : ℕ
  genres : List (Option String)
  fetchOutcome : Option String → ℕ → Option (List RawTrack)
  upsertOk : ℕ → Bool

/-- The mutable state that survives across pages and genres:
`totalUpserted`, the `seenJamendoIds` set (insertion list), and how many
upsert calls were issued so far (the index into `upsertOk`). -/
structure RunState where
  totalUpserted : ℕ
  seen : List String
  upsertCalls : ℕ
deriving DecidableEq, Repr

/-- The dedupe filter over a page's mapped rows: keep a row iff its
jamendo_id is not in `seen`, adding it as we go (so in-page duplicates are
dropped too, and ids enter `seen` whether or not their batch is ever
upserted). -/
def dedupeNew (seen : List String) (rows : List SongRow) :
    List SongRow × List String :=
  rows.foldl
    (fun acc row =>
      if row.jamendo_id ∈ acc.2 then acc
      else (acc.1 ++ [row], row.jamendo_id :: acc.2))
    ([], seen)

/-- The per-page batch loop: upsert each batch unless the target is already
met; a failed call is logged and skipped (it still consumes its call index),
a successful call adds the batch's row count.  The source `break` on
reaching the target is a fold guard here — the guard stays true once
reached, so no later batch runs either. -/
def upsertBatches (ctx : IngestCtx) (st : RunState)
    (batches : List (List SongRow)) : RunState :=
  batches.foldl
    (fun st batch =>
      if ctx.target ≤ st.totalUpserted then st
      else
        { st with
          upsertCalls := st.upsertCalls + 1,
          totalUpserted := st.totalUpserted +
            (if ctx.upsertOk st.upsertCalls then batch.length else 0) })
    st

/-- One iteration of the per-genre `while` loop: fetch (already degraded to
`[]` on failure), track consecutive empty pages and stop the partition at
two, map + dedupe, upsert in batches, advance the offset by `limit`.
Returns (state, next offset, next emptyPagesInARow, partition stopped?).
The UUID/created_at arguments of the row mapper influence nothing, so they
are fixed. -/
def pageStep (ctx : IngestCtx) (genre : Option String) (st : RunState)
    (offset emptyRow : ℕ) : RunState × ℕ × ℕ × Bool :=
  let tracks := (ctx.fetchOutcome genre offset).getD []
  let emptyRow' := if tracks = [] then emptyRow + 1 else 0
  if tracks = [] ∧ 2 ≤ emptyRow' then (st, offset, emptyRow', true)
  else
    let mapped := tracks.filterMap (fun t => mapTrackToSongRow "" 0 (some t))
    let deduped := dedupeNew st.seen mapped
    if deduped.1 = [] then
      ({ st with seen := deduped.2 }, offset + ctx.limit, emptyRow', false)
    else
      (upsertBatches ctx { st with seen := deduped.2 }
        (chunk deduped.1 ctx.batchSize),
       offset + ctx.limit, emptyRow', false)

/-- The per-genre `while (totalUpserted < target)` loop, with explicit fuel
(the source loop can run unboundedly for an adversarial catalog; every claim
is settled at a sufficient fuel). -/
def runGenreLoop (ctx : IngestCtx) (genre : Option String) :
    ℕ → RunState → ℕ → ℕ → RunState
  | 0, st, _, _ => st
  | fuel + 1, st, offset, emptyRow =>
    if st.totalUpserted < ctx.target then
      let r := pageStep ctx genre st offset emptyRow
      if r.2.2.2 then r.1
      else runGenreLoop ctx genre fuel r.1 r.2.1 r.2.2.1
    else st

/-- The whole run: the genre partitions in order, each from the start
offset with a fresh empty-page counter; the outer loop's early `break` on
reaching the target is subsumed by the inner loop's guard. -/
def runIngest (ctx : IngestCtx) (startOffset : ℕ) (fuel : ℕ) : RunState :=
  ctx.genres.foldl
    (fun st g => runGenreLoop ctx g fuel st startOffset 0)
    { totalUpserted := 0, seen := [], upsertCalls := 0 }

/-- `process.exit(totalUpserted >= target ? 0 : 1)`. -/
def exitCode (ctx : IngestCtx) (st : RunState) : ℕ :=
  if ctx.target ≤ st.totalUpserted then 0 else 1

/-- `withRetry`: attempts 1..retries in order; on a non-final failure sleep
`min(10000, base * 2 ^ (attempt-1)) + jitter attempt` and try again; when
the last attempt fails the error propagates (`none` here — the caller
degrades it to an empty page).  Returns the result and the list of delays
slept. -/
def withRetryGo {α : Type*} (attempt : ℕ → Except String α) (jitter : ℕ → ℚ)
    (base : ℚ) : ℕ → ℕ → Option α × List ℚ
  | _, 0 => (none, [])
  | k, rem + 1 =>
    match attempt k with
    | .ok a => (some a, [])
    | .error _ =>
      if rem = 0 then (none, [])
      else
        let d := min 10000 (base * 2 ^ (k - 1)) + jitter k
        let rest := withRetryGo attempt jitter base (k + 1) rem
        (rest.1, d :: rest.2)

def withRetry {α : Type*} (attempt : ℕ → Except String α) (jitter : ℕ → ℚ)
    (retries : ℕ) (base : ℚ) : Option α × List ℚ :=
  withRetryGo attempt jitter base 1 retries

/-- The row-count a batch list should contribute: the lengths of exactly the
batches whose upsert call (counted from `call0`) succeeds.  This is the
spec's accounting — "total upserted count reflects only successful
batches". -/
def expectedUpserts (ok : ℕ → Bool) (call0 : ℕ) : List (List SongRow) → ℕ
  | [] => 0
  | b :: bs => (if ok call0 then b.length else 0) + expectedUpserts ok (call0 + 1) bs

/-! ## Claims C5, C6, C7 -/

def mkTrack (n : ℕ) : RawTrack :=
  { id := .str ⟨List.replicate (n + 1) 'a'⟩, jamendo_id := .missing,
    name := .str "Song", title := .missing, artist_name := .str "Artist",
    artist := .missing, audio := .str "http://audio", audio_url := .missing,
    image := .missing, image_url := .missing, duration := .num 100,
    popularity := .num 1, popularity_total := .missing,
    popularity_week := .missing, popularity_month := .missing }

/-- Scenario C's catalog partition: 20 records, then 10, then empty pages. -/
def c5Fetch : Option String → ℕ → Option (List RawTrack) := fun _ off =>
  if off = 0 then some ((List.range 20).map mkTrack)
  else if off = 20 then some ((List.range 10).map (fun n => mkTrack (20 + n)))
  else some []

def c5Ctx : IngestCtx :=
  { limit := 20, batchSize := 50, target := 50, genres := [none],
    fetchOutcome := c5Fetch, upsertOk := fun _ => true }

/-- C5: a partition stops after two consecutive empty pages; the run stops
fetching as soon as the cumulative count reaches the target; the exit code is
0 iff the target was met; and Scenario C (target 50, limit 20, one partition
with 30 unique records then two empty pages) ends with 30 upserted and the
target-not-met exit code 1. -/
theorem C5_stop_conditions_and_exit :
    (∀ (ctx : IngestCtx) (st : RunState),
      exitCode ctx st = 0 ↔ ctx.target ≤ st.totalUpserted)
    ∧ (∀ (ctx : IngestCtx) (g : Option String) (fuel : ℕ) (st : RunState)
        (off er : ℕ), ctx.target ≤ st.totalUpserted →
        runGenreLoop ctx g fuel st off er = st)
    ∧ (∀ (ctx : IngestCtx) (st : RunState) (batches : List (List SongRow)),
        ctx.target ≤ st.totalUpserted → upsertBatches ctx st batches = st)
    ∧ (∀ (ctx : IngestCtx) (g : Option String) (fuel : ℕ) (st : RunState)
        (off : ℕ), (ctx.fetchOutcome g off).getD [] = [] →
        runGenreLoop ctx g (fuel + 1) st off 1 = st)
    ∧ ((runIngest c5Ctx 0 10).totalUpserted = 30
      ∧ exitCode c5Ctx (runIngest c5Ctx 0 10) = 1) := by
  refine ⟨?_, ?_, ?_, ?_, ?_⟩
  · intro ctx st
    unfold exitCode
    by_cases h : ctx.target ≤ st.totalUpserted <;> simp [h]
  · intro ctx g fuel st off er h
    cases fuel with
    | zero => rfl
    | succ f =>
      show runGenreLoop ctx g (f + 1) st off er = st
      rw [runGenreLoop, if_neg (Nat.not_lt.mpr h)]
  · intro ctx st batches h
    induction batches with
    | nil => rfl
    | cons b bs ih =>
      show upsertBatches ctx st (b :: bs) = st
      unfold upsertBatches at ih ⊢
      rw [List.foldl_cons, if_pos h]
      exact ih
  · intro ctx g fuel st off hempty
    by_cases hlt : st.totalUpserted < ctx.target
    · rw [runGenreLoop, if_pos hlt]
      have hp : pageStep ctx g st off 1 = (st, off, 2, true) := by
        unfold pageStep
        rw [hempty]
        simp
      rw [hp]
      rfl
    · rw [runGenreLoop, if_neg hlt]
  · constructor
    · decide
    · decide

/-- C5 at a concrete state already past the target: the genre loop does not
fetch another page. -/
theorem C5_stop_conditions_and_exit_witness :
    runGenreLoop c5Ctx none 3 ⟨60, [], 2⟩ 0 0 = ⟨60, [], 2⟩ :=
  C5_stop_conditions_and_exit.2.1 c5Ctx none 3 ⟨60, [], 2⟩ 0 0 (by decide)

/-- C6: as long as the target is out of reach, every batch of the list is
attempted exactly once (one upsert call each, failed ones not retried), and
the cumulative count grows by exactly the row counts of the batches whose
call succeeded. -/
theorem C6_failed_batch_skipped_not_fatal (ctx : IngestCtx) (st : RunState)
    (batches : List (List SongRow))
    (h : st.totalUpserted + (batches.map List.length).sum < ctx.target) :
    (upsertBatches ctx st batches).upsertCalls = st.upsertCalls + batches.length
    ∧ (upsertBatches ctx st batches).totalUpserted =
        st.totalUpserted + expectedUpserts ctx.upsertOk st.upsertCalls batches := by
  induction batches generalizing st with
  | nil => exact ⟨rfl, rfl⟩
  | cons b bs ih =>
    have hlt : ¬ ctx.target ≤ st.totalUpserted := by
      simp only [List.map_cons, List.sum_cons] at h
      omega
    have hstep : upsertBatches ctx st (b :: bs) =
        upsertBatches ctx
          { st with
            upsertCalls := st.upsertCalls + 1,
            totalUpserted := st.totalUpserted +
              (if ctx.upsertOk st.upsertCalls then b.length else 0) } bs := by
      unfold upsertBatches
      rw [List.foldl_cons, if_neg hlt]
    have h' : ({ st with
        upsertCalls := st.upsertCalls + 1,
        totalUpserted := st.totalUpserted +
          (if ctx.upsertOk st.upsertCalls then b.length else 0) } :
          RunState).totalUpserted + (bs.map List.length).sum < ctx.target := by
      simp only [List.map_cons, List.sum_cons] at h
      by_cases hok : ctx.upsertOk st.upsertCalls <;> simp [hok] <;> omega
    rcases ih _ h' with ⟨ih1, ih2⟩
    rw [hstep]
    constructor
    · rw [ih1]
      show st.upsertCalls + 1 + bs.length = st.upsertCalls + (bs.length + 1)
      omega
    · rw [ih2]
      show st.totalUpserted + (if ctx.upsertOk st.upsertCalls then b.length else 0) +
          expectedUpserts ctx.upsertOk (st.upsertCalls + 1) bs =
        st.totalUpserted + ((if ctx.upsertOk st.upsertCalls then b.length else 0) +
          expectedUpserts ctx.upsertOk (st.upsertCalls + 1) bs)
      omega

def c6Row (j : String) : SongRow :=
  { id := "", jamendo_id := j, title := "t", artist := "a", audio_url := "u",
    image_url := "", duration := 0, popularity := 0, created_at := 0 }

def c6Ctx : IngestCtx :=
  { limit := 20, batchSize := 10, target := 100, genres := [none],
    fetchOutcome := fun _ _ => some [], upsertOk := fun n => decide (n ≠ 1) }

def c6Batches : List (List SongRow) :=
  [[c6Row "a", c6Row "b"], [c6Row "c"], [c6Row "d"]]

/-- C6 at three concrete batches whose second upsert call fails: all three
are attempted, and only the 2 + 1 rows of the successful calls count. -/
theorem C6_failed_batch_skipped_not_fatal_witness :
    (upsertBatches c6Ctx ⟨0, [], 0⟩ c6Batches).upsertCalls =
      (⟨0, [], 0⟩ : RunState).upsertCalls + c6Batches.length
    ∧ (upsertBatches c6Ctx ⟨0, [], 0⟩ c6Batches).totalUpserted =
        (⟨0, [], 0⟩ : RunState).totalUpserted +
          expectedUpserts c6Ctx.upsertOk (⟨0, [], 0⟩ : RunState).upsertCalls c6Batches :=
  C6_failed_batch_skipped_not_fatal c6Ctx ⟨0, [], 0⟩ c6Batches (by decide)

theorem withRetryGo_all_fail {α : Type*} (attempt : ℕ → Except String α)
    (jitter : ℕ → ℚ) (base : ℚ) :
    ∀ (rem k : ℕ), 1 ≤ k →
      (∀ j, k ≤ j → j ≤ k + rem - 1 → ∃ msg, attempt j = .error msg) →
      (withRetryGo attempt jitter base k rem).1 = none
      ∧ (withRetryGo attempt jitter base k rem).2 =
          (List.range (rem - 1)).map
            (fun i => min 10000 (base * 2 ^ (k - 1 + i)) + jitter (k + i)) := by
  intro rem
  induction rem with
  | zero => intro k _ _; exact ⟨rfl, rfl⟩
  | succ rem ih =>
    intro k hk hfail
    rcases hfail k (Nat.le_refl k) (by omega) with ⟨msg, hmsg⟩
    have hunf : withRetryGo attempt jitter base k (rem + 1) =
        (if rem = 0 then ((none : Option α), ([] : List ℚ))
         else
          ((withRetryGo attempt jitter base (k + 1) rem).1,
            (min 10000 (base * 2 ^ (k - 1)) + jitter k) ::
              (withRetryGo attempt jitter base (k + 1) rem).2)) := by
      show (match attempt k with
        | .ok a => (some a, [])
        | .error _ =>
          if rem = 0 then (none, [])
          else
            let d := min 10000 (base * 2 ^ (k - 1)) + jitter k
            let rest := withRetryGo attempt jitter base (k + 1) rem
            (rest.1, d :: rest.2) : Option α × List ℚ) = _
      rw [hmsg]
    rw [hunf]
    by_cases hrem : rem = 0
    · subst hrem
      rw [if_pos rfl]
      exact ⟨rfl, rfl⟩
    · rw [if_neg hrem]
      have ihk := ih (k + 1) (by omega)
        (fun j hj1 hj2 => hfail j (by omega) (by omega))
      refine ⟨ihk.1, ?_⟩
      show (min 10000 (base * 2 ^ (k - 1)) + jitter k) ::
          (withRetryGo attempt jitter base (k + 1) rem).2 = _
      rw [ihk.2]
      have hrem1 : rem + 1 - 1 = (rem - 1) + 1 := by omega
      rw [hrem1, List.range_succ_eq_map, List.map_cons, List.map_map]
      congr 1
      apply List.map_congr_left
      intro i _
      simp only [Function.comp_apply, Nat.succ_eq_add_one]
      have e1 : k + 1 - 1 + i = k - 1 + (i + 1) := by omega
      have e2 : k + 1 + i = k + (i + 1) := by omega
      rw [e1, e2]

def c7xCtx : IngestCtx :=
  { limit := 20, batchSize := 50, target := 50, genres := [none],
    fetchOutcome := fun _ _ => none, upsertOk := fun _ => true }

/-- C7 (amended): a failing fetch is retried with delays
min(10000, base·2^(attempt-1)) + jitter(attempt) between the attempts, up to
the fixed ceiling, after which the page is degraded to empty and the loop
continues; the offset advances by the page size after every page except the
final page that ends the partition via the two-consecutive-empty-pages rule. -/
theorem C7_retry_backoff_and_degrade :
    (∀ (attempt : ℕ → Except String (List RawTrack)) (jitter : ℕ → ℚ)
        (retries : ℕ) (base : ℚ),
      (∀ k, 1 ≤ k → k ≤ retries → ∃ msg, attempt k = .error msg) →
        (withRetry attempt jitter retries base).1 = none
        ∧ (withRetry attempt jitter retries base).2 =
            (List.range (retries - 1)).map
              (fun i => min 10000 (base * 2 ^ i) + jitter (i + 1)))
    ∧ (∀ (ctx : IngestCtx) (g : Option String) (st : RunState) (off er : ℕ),
        ctx.fetchOutcome g off = none →
          pageStep ctx g st off er =
            if 2 ≤ er + 1 then (st, off, er + 1, true)
            else (st, off + ctx.limit, er + 1, false))
    ∧ (∀ (ctx : IngestCtx) (g : Option String) (st : RunState) (off er : ℕ),
        (pageStep ctx g st off er).2.2.2 = false →
          (pageStep ctx g st off er).2.1 = off + ctx.limit) := by
  refine ⟨?_, ?_, ?_⟩
  · intro attempt jitter retries base hfail
    have h := withRetryGo_all_fail attempt jitter base retries 1 (Nat.le_refl 1)
      (fun j hj1 hj2 => hfail j hj1 (by omega))
    refine ⟨h.1, ?_⟩
    rw [withRetry, h.2]
    apply List.map_congr_left
    intro i _
    show min 10000 (base * 2 ^ (1 - 1 + i)) + jitter (1 + i) = _
    have e1 : 1 - 1 + i = i := by omega
    have e2 : 1 + i = i + 1 := by omega
    rw [e1, e2]
  · intro ctx g st off er hf
    by_cases h2 : 2 ≤ er + 1 <;> simp [pageStep, hf, dedupeNew, h2]
  · intro ctx g st off er h
    unfold pageStep at h ⊢
    by_cases ht : ((ctx.fetchOutcome g off).getD []) = []
    · by_cases h2 : (2 : ℕ) ≤ er + 1
      · simp [ht, h2] at h
      · simp only [ht, if_pos rfl, if_true]
        simp only [ht, if_pos rfl, if_true] at h
        simp [h2] at h ⊢
        split <;> rfl
    · simp only [ht, if_neg, ite_false]
      simp [ht] at h ⊢
      split <;> rfl

/-- C7 as stated is false on the terminating page: the second consecutive
empty page breaks the partition without advancing the offset. -/
theorem C7_counterexample :
    (pageStep c7xCtx none ⟨0, [], 0⟩ 40 1).2.2.2 = true
    ∧ (pageStep c7xCtx none ⟨0, [], 0⟩ 40 1).2.1 ≠ 40 + c7xCtx.limit := by
  decide

/-- C7's retry clause at a concrete always-failing fetch with the script's
retries = 4, base = 800. -/
theorem C7_retry_backoff_and_degrade_witness :
    (withRetry (fun _ => (.error "boom" : Except String (List RawTrack)))
      (fun _ => 0) 4 800).1 = none
    ∧ (withRetry (fun _ => (.error "boom" : Except String (List RawTrack)))
        (fun _ => 0) 4 800).2 =
        (List.range (4 - 1)).map
          (fun i => min 10000 ((800 : ℚ) * 2 ^ i) + (fun _ => (0 : ℚ)) (i + 1)) :=
  C7_retry_backoff_and_degrade.1 (fun _ => .error "boom") (fun _ => 0) 4 800
    (fun k _ _ => ⟨"boom", rfl⟩)

/-! ## The Duration Cache: hydrateSongDurations -/

/-- `Map.set`: the cache is an association list where the newest binding for
a key wins (`List.lookup` finds the first, i.e. newest, entry). -/
def mapSet (m : List (String × ℚ)) (k : String) (v : ℚ) : List (String × ℚ) :=
  (k, v) :: m

/-- `Array.from(new Set(xs))`: first occurrences, in order. -/
def firstDedup : List String → List String
  | [] => []
  | a :: t => a :: firstDedup (t.filter (fun x => x ≠ a))
termination_by l => l.length
decreasing_by
  exact Nat.lt_succ_of_le (List.length_filter_le _ _)

theorem mem_firstDedup {x : String} : ∀ {l : List String},
    x ∈ firstDedup l ↔ x ∈ l := by
  intro l
  have H : ∀ n (l : List String), l.length ≤ n → (x ∈ firstDedup l ↔ x ∈ l) := by
    intro n
    induction n with
    | zero =>
      intro l hl
      rw [List.length_eq_zero.mp (Nat.le_zero.mp hl)]
      simp [firstDedup]
    | succ n ih =>
      intro l hl
      cases l with
      | nil => simp [firstDedup]
      | cons a t =>
        rw [firstDedup, List.mem_cons, List.mem_cons,
          ih (t.filter (fun x => x ≠ a))
            (Nat.le_trans (List.length_filter_le _ _) (Nat.le_of_succ_le_succ hl))]
        by_cases hxa : x = a
        · simp [hxa]
        · simp [hxa, List.mem_filter]
  exact H l.length l (Nat.le_refl _)

/-- Applying the rows a store query returned: each row's normalized id is
cached with its sanitized duration (a row with a null/empty id is skipped). -/
def processRows (cache : List (String × ℚ)) (rows : List (String × JsVal)) :
    List (String × ℚ) :=
  rows.foldl
    (fun c row =>
      match normalizeId (some row.1) with
      | some id => mapSet c id (toNonNegativeNumber row.2)
      | none => c)
    cache

/-- One chunk of `hydrateSongDurations`: query the store for the chunk's
ids, cache the returned durations, then default every still-uncached id of
the chunk to 0. -/
def processChunk (store : List (String × JsVal)) (cache : List (String × ℚ))
    (ids : List String) : List (String × ℚ) :=
  let rows := store.filter (fun row => decide (row.1 ∈ ids))
  let c1 := processRows cache rows
  ids.foldl (fun c id => if (c.lookup id).isSome then c else mapSet c id 0) c1

/-- The ids `hydrateSongDurations` actually queries: deduplicated, truthy
(non-empty), and not already cached. -/
def hydrateMissing (cache : List (String × ℚ)) (songIds : List String) :
    List String :=
  ((firstDedup songIds).filter (fun id => id ≠ "")).filter
    (fun id => (cache.lookup id).isNone)

/-- `hydrateSongDurations` (generateUserSongFeatures.js): dedupe, drop empty
ids, restrict to ids not already cached; if none are missing, return without
touching the store; otherwise query in chunks of 500.  The second component
counts the store queries issued. -/
def hydrateSongDurations (store : List (String × JsVal))
    (cache : List (String × ℚ)) (songIds : List String) :
    List (String × ℚ) × ℕ :=
  let missing := hydrateMissing cache songIds
  if missing.isEmpty then (cache, 0)
  else
    let cs := chunk missing 500
    (cs.foldl (fun c ids => processChunk store c ids) cache, cs.length)

theorem mapSet_lookup (m : List (String × ℚ)) (k k' : String) (v : ℚ) :
    (mapSet m k' v).lookup k = if k = k' then some v else m.lookup k := by
  unfold mapSet
  by_cases h : k = k'
  · have hb : (k == k') = true := beq_iff_eq.mpr h
    simp [List.lookup, hb, h]
  · have hb : (k == k') = false := beq_eq_false_iff_ne.mpr h
    simp [List.lookup, hb, h]

theorem processRows_isSome_mono (rows : List (String × JsVal))
    (cache : List (String × ℚ)) (k : String)
    (h : (cache.lookup k).isSome) :
    ((processRows cache rows).lookup k).isSome := by
  induction rows generalizing cache with
  | nil => exact h
  | cons row rows ih =>
    have hstep : processRows cache (row :: rows) =
        processRows (match normalizeId (some row.1) with
          | some id => mapSet cache id (toNonNegativeNumber row.2)
          | none => cache) rows := rfl
    rw [hstep]
    apply ih
    cases hn : normalizeId (some row.1) with
    | none =>
      exact h
    | some id =>
      show ((mapSet cache id (toNonNegativeNumber row.2)).lookup k).isSome = true
      rw [mapSet_lookup]
      by_cases hk : k = id <;> simp [hk, h]

theorem fallback_lookup (ids : List String) (c : List (String × ℚ)) (k : String) :
    ((ids.foldl (fun c id => if (c.lookup id).isSome then c else mapSet c id 0)
      c).lookup k) =
    (if (c.lookup k).isNone ∧ k ∈ ids then some 0 else c.lookup k) := by
  induction ids generalizing c with
  | nil => simp
  | cons id ids ih =>
    rw [List.foldl_cons, ih]
    by_cases hs : (c.lookup id).isSome
    · rw [if_pos hs]
      by_cases hk : k = id
      · subst hk
        have hnn : ¬ ((c.lookup k).isNone = true) := by
          rw [Option.isNone_iff_eq_none]
          exact Option.ne_none_iff_isSome.mpr hs
        simp [hnn]
      · exact if_congr (by simp [List.mem_cons, hk]) rfl rfl
    · rw [if_neg hs]
      by_cases hk : k = id
      · subst hk
        have hlk : ((mapSet c k 0).lookup k) = some 0 := by
          rw [mapSet_lookup, if_pos rfl]
        have hno : (c.lookup k).isNone = true := by
          rw [Option.isNone_iff_eq_none]
          exact Option.not_isSome_iff_eq_none.mp hs
        rw [hlk]
        simp [hno]
      · have hlk : ((mapSet c id 0).lookup k) = c.lookup k := by
          rw [mapSet_lookup, if_neg hk]
        rw [hlk]
        exact if_congr (by simp [List.mem_cons, hk]) rfl rfl

theorem processChunk_covers (store : List (String × JsVal))
    (cache : List (String × ℚ)) (ids : List String) (k : String)
    (h : (cache.lookup k).isSome ∨ k ∈ ids) :
    ((processChunk store cache ids).lookup k).isSome := by
  unfold processChunk
  rw [fallback_lookup]
  rcases h with h | h
  · have hs := processRows_isSome_mono (store.filter (fun row => decide (row.1 ∈ ids)))
      cache k h
    by_cases hn : ((processRows cache
        (store.filter (fun row => decide (row.1 ∈ ids)))).lookup k).isNone ∧ k ∈ ids
    · simp [hn]
    · rw [if_neg hn]
      exact hs
  · by_cases hn : ((processRows cache
        (store.filter (fun row => decide (row.1 ∈ ids)))).lookup k).isNone
    · simp [hn, h]
    · rw [if_neg (by simp [hn])]
      simpa [Option.isNone_iff_eq_none, Option.isSome_iff_ne_none] using hn

theorem processChunk_isSome_mono (store : List (String × JsVal))
    (cache : List (String × ℚ)) (ids : List String) (k : String)
    (h : (cache.lookup k).isSome) :
    ((processChunk store cache ids).lookup k).isSome :=
  processChunk_covers store cache ids k (Or.inl h)

/-- All values held by a cache list are non-negative. -/
def cacheNonneg (c : List (String × ℚ)) : Prop := ∀ kv ∈ c, 0 ≤ kv.2

theorem lookup_mem {c : List (String × ℚ)} {k : String} {v : ℚ}
    (h : c.lookup k = some v) : (k, v) ∈ c := by
  induction c with
  | nil => simp [List.lookup] at h
  | cons kv t ih =>
    rw [List.lookup] at h
    cases hb : (k == kv.1) with
    | true =>
      rw [hb] at h
      have hk := beq_iff_eq.mp hb
      injection h with h
      rw [hk, ← h]
      exact List.mem_cons_self _ _
    | false =>
      rw [hb] at h
      exact List.mem_cons_of_mem _ (ih h)

theorem mapSet_nonneg {c : List (String × ℚ)} {k : String} {v : ℚ}
    (hc : cacheNonneg c) (hv : 0 ≤ v) : cacheNonneg (mapSet c k v) := by
  intro kv hkv
  rcases List.mem_cons.mp hkv with rfl | hkv
  · exact hv
  · exact hc kv hkv

theorem processRows_nonneg (rows : List (String × JsVal))
    (cache : List (String × ℚ)) (hc : cacheNonneg cache) :
    cacheNonneg (processRows cache rows) := by
  induction rows generalizing cache with
  | nil => exact hc
  | cons row rows ih =>
    have hstep : processRows cache (row :: rows) =
        processRows (match normalizeId (some row.1) with
          | some id => mapSet cache id (toNonNegativeNumber row.2)
          | none => cache) rows := rfl
    rw [hstep]
    apply ih
    cases hn : normalizeId (some row.1) with
    | none => exact hc
    | some id => exact mapSet_nonneg hc (toNonNegativeNumber_nonneg _)

theorem fallback_nonneg (ids : List String) (c : List (String × ℚ))
    (hc : cacheNonneg c) :
    cacheNonneg (ids.foldl
      (fun c id => if (c.lookup id).isSome then c else mapSet c id 0) c) := by
  induction ids generalizing c with
  | nil => exact hc
  | cons id ids ih =>
    rw [List.foldl_cons]
    apply ih
    by_cases hs : (c.lookup id).isSome
    · rw [if_pos hs]; exact hc
    · rw [if_neg hs]; exact mapSet_nonneg hc (le_refl 0)

theorem processChunk_nonneg (store : List (String × JsVal))
    (cache : List (String × ℚ)) (ids : List String) (hc : cacheNonneg cache) :
    cacheNonneg (processChunk store cache ids) :=
  fallback_nonneg ids _ (processRows_nonneg _ cache hc)

theorem chunksFold_nonneg (store : List (String × JsVal))
    (cs : List (List String)) (cache : List (String × ℚ))
    (hc : cacheNonneg cache) :
    cacheNonneg (cs.foldl (fun c ids => processChunk store c ids) cache) := by
  induction cs generalizing cache with
  | nil => exact hc
  | cons ids cs ih =>
    rw [List.foldl_cons]
    exact ih _ (processChunk_nonneg store cache ids hc)

theorem chunksFold_covers (store : List (String × JsVal))
    (cs : List (List String)) (cache : List (String × ℚ)) (i : String)
    (h : (cache.lookup i).isSome ∨ i ∈ cs.flatten) :
    (((cs.foldl (fun c ids => processChunk store c ids) cache)).lookup i).isSome := by
  induction cs generalizing cache with
  | nil =>
    rcases h with h | h
    · exact h
    · exact absurd h (List.not_mem_nil i)
  | cons ids cs ih =>
    rw [List.foldl_cons]
    rcases h with h | h
    · exact ih _ (Or.inl (processChunk_covers store cache ids i (Or.inl h)))
    · rw [List.flatten_cons, List.mem_append] at h
      rcases h with h | h
      · exact ih _ (Or.inl (processChunk_covers store cache ids i (Or.inr h)))
      · exact ih _ (Or.inr h)

theorem processRows_lookup_same (rows : List (String × JsVal))
    (cache : List (String × ℚ)) (i : String)
    (hrows : ∀ row ∈ rows, ¬ (normalizeId (some row.1) = some i)) :
    (processRows cache rows).lookup i = cache.lookup i := by
  induction rows generalizing cache with
  | nil => rfl
  | cons row rows ih =>
    have hstep : processRows cache (row :: rows) =
        processRows (match normalizeId (some row.1) with
          | some id => mapSet cache id (toNonNegativeNumber row.2)
          | none => cache) rows := rfl
    rw [hstep, ih _ (fun r hr => hrows r (List.mem_cons_of_mem row hr))]
    cases hn : normalizeId (some row.1) with
    | none => rfl
    | some id =>
      show (mapSet cache id (toNonNegativeNumber row.2)).lookup i = cache.lookup i
      rw [mapSet_lookup]
      have : ¬ (i = id) := fun hh =>
        hrows row (List.mem_cons_self _ _) (hh ▸ hn)
      rw [if_neg this]

theorem processChunk_lookup_notstore (store : List (String × JsVal))
    (cache : List (String × ℚ)) (ids : List String) (i : String)
    (hstore : ∀ row ∈ store, ¬ (normalizeId (some row.1) = some i)) :
    (processChunk store cache ids).lookup i =
      if (cache.lookup i).isNone ∧ i ∈ ids then some 0 else cache.lookup i := by
  unfold processChunk
  rw [fallback_lookup,
    processRows_lookup_same _ cache i
      (fun row hr => hstore row (List.mem_of_mem_filter hr))]

theorem chunksFold_lookup_notstore (store : List (String × JsVal))
    (cs : List (List String)) (cache : List (String × ℚ)) (i : String)
    (hstore : ∀ row ∈ store, ¬ (normalizeId (some row.1) = some i)) :
    ((cs.foldl (fun c ids => processChunk store c ids) cache).lookup i) =
      if (cache.lookup i).isNone ∧ i ∈ cs.flatten then some 0
      else cache.lookup i := by
  induction cs generalizing cache with
  | nil => simp
  | cons ids cs ih =>
    rw [List.foldl_cons, ih, processChunk_lookup_notstore store cache ids i hstore]
    by_cases h1 : (cache.lookup i).isNone = true <;>
      by_cases h2 : i ∈ ids <;>
      by_cases h3 : i ∈ cs.flatten <;>
      simp [h1, h2, h3, List.flatten_cons, List.mem_append]

/-! ## Claim C9 -/

def c9Store : List (String × JsVal) := [("s1", .num 30)]
def c9Ids : List String := ["s1", "s2", ""]

/-- C9: after hydrate, every non-empty requested id is cached with a
non-negative value; an id matched by no store row is cached as 0; and a
hydrate call whose non-empty ids are all already cached issues no store
query and leaves the cache untouched. -/
theorem C9_hydrate_contract (store : List (String × JsVal))
    (cache : List (String × ℚ)) (ids : List String)
    (hnn : cacheNonneg cache) :
    (∀ i ∈ ids, ¬ (i = "") →
      ∃ v, ((hydrateSongDurations store cache ids).1.lookup i) = some v ∧ 0 ≤ v)
    ∧ (∀ i ∈ ids, ¬ (i = "") → cache.lookup i = none →
        (∀ row ∈ store, ¬ (normalizeId (some row.1) = some i)) →
        ((hydrateSongDurations store cache ids).1.lookup i) = some 0)
    ∧ (∀ cache₂ : List (String × ℚ),
        (∀ i ∈ ids, ¬ (i = "") → ((cache₂.lookup i).isSome = true)) →
        hydrateSongDurations store cache₂ ids = (cache₂, 0)) := by
  have hmem_missing : ∀ i ∈ ids, ¬ (i = "") → (cache.lookup i).isNone →
      i ∈ hydrateMissing cache ids := by
    intro i hi hne hnone
    unfold hydrateMissing
    refine List.mem_filter.mpr ⟨List.mem_filter.mpr ⟨mem_firstDedup.mpr hi, ?_⟩, ?_⟩
    · simpa using hne
    · simpa using hnone
  have hresult : ∀ i ∈ ids, ¬ (i = "") →
      (((hydrateSongDurations store cache ids).1.lookup i).isSome = true) := by
    intro i hi hne
    unfold hydrateSongDurations
    by_cases hempty : (hydrateMissing cache ids).isEmpty
    · rw [if_pos hempty]
      -- nothing was missing: i was already cached
      have : ¬ (cache.lookup i).isNone := by
        intro hnone
        have := hmem_missing i hi hne hnone
        rw [List.isEmpty_iff.mp hempty] at this
        exact absurd this (List.not_mem_nil i)
      simpa [Option.isNone_iff_eq_none, Option.isSome_iff_ne_none] using this
    · rw [if_neg hempty]
      by_cases hnone : (cache.lookup i).isNone
      · exact chunksFold_covers store _ cache i
          (Or.inr (by rw [chunk_flatten]; exact hmem_missing i hi hne hnone))
      · exact chunksFold_covers store _ cache i
          (Or.inl (by simpa [Option.isNone_iff_eq_none,
            Option.isSome_iff_ne_none] using hnone))
  have hres_nonneg : cacheNonneg (hydrateSongDurations store cache ids).1 := by
    unfold hydrateSongDurations
    by_cases hempty : (hydrateMissing cache ids).isEmpty
    · rw [if_pos hempty]
      exact hnn
    · rw [if_neg hempty]
      exact chunksFold_nonneg store _ cache hnn
  refine ⟨?_, ?_, ?_⟩
  · intro i hi hne
    rcases Option.isSome_iff_exists.mp (hresult i hi hne) with ⟨v, hv⟩
    exact ⟨v, hv, hres_nonneg (i, v) (lookup_mem hv)⟩
  · intro i hi hne hnone hstore
    unfold hydrateSongDurations
    by_cases hempty : (hydrateMissing cache ids).isEmpty
    · exfalso
      have := hmem_missing i hi hne (by simp [hnone])
      rw [List.isEmpty_iff.mp hempty] at this
      exact absurd this (List.not_mem_nil i)
    · rw [if_neg hempty]
      rw [chunksFold_lookup_notstore store _ cache i hstore]
      rw [if_pos ⟨by simp [hnone], by
        rw [chunk_flatten]
        exact hmem_missing i hi hne (by simp [hnone])⟩]
  · intro cache₂ hall
    have hempty : (hydrateMissing cache₂ ids).isEmpty := by
      rw [List.isEmpty_iff]
      unfold hydrateMissing
      apply List.filter_eq_nil_iff.mpr
      intro i hi
      have hi' := List.mem_filter.mp hi
      have hin : i ∈ ids := mem_firstDedup.mp hi'.1
      have hne : ¬ (i = "") := by simpa using hi'.2
      have := hall i hin hne
      simp only [Option.isNone_iff_eq_none, decide_eq_true_eq]
      exact Option.ne_none_iff_isSome.mpr this
    unfold hydrateSongDurations
    rw [if_pos hempty]

/-- C9 at a concrete store and id list: one found id, one missing id, one
empty id, starting from an empty cache. -/
theorem C9_hydrate_contract_witness :
    (∀ i ∈ c9Ids, ¬ (i = "") →
      ∃ v, ((hydrateSongDurations c9Store [] c9Ids).1.lookup i) = some v ∧ 0 ≤ v)
    ∧ (∀ i ∈ c9Ids, ¬ (i = "") → ([] : List (String × ℚ)).lookup i = none →
        (∀ row ∈ c9Store, ¬ (normalizeId (some row.1) = some i)) →
        ((hydrateSongDurations c9Store [] c9Ids).1.lookup i) = some 0)
    ∧ (∀ cache₂ : List (String × ℚ),
        (∀ i ∈ c9Ids, ¬ (i = "") → ((cache₂.lookup i).isSome = true)) →
        hydrateSongDurations c9Store cache₂ c9Ids = (cache₂, 0)) :=
  C9_hydrate_contract c9Store [] c9Ids (by intro kv hkv; simp at hkv)

end Playgen
